import Mathlib

/-!
A shallow embedding of the Mutagen text generator library (mutagen.js):
the node model, the Builder (prime-pool cycle allocator and label map),
the evaluator (including the stateful Shuffle mechanism), and the
token-to-text assembler state machine, together with theorems about the
selection formulas, cycle allocation, punctuation precedence,
capitalization, the a/an rule, and the Shuffle no-repeat property.

Source correspondence (mutagen.js):
- `Node` models the user-facing node constructors (Sequence, Choice,
  Shuffle, Weighted, Fixed, plain strings, null, and the sentinel
  objects Period, Comma, Semicolon, Dash, AAn, Concat).
- `build` models `Builder()`s `buildfunc(node, label)`: it pops primes
  from `primelist` (from the end, as JS `Array.pop` does), maintains
  `fixedmap`, and produces a compiled tree `CNode` in which every
  Choice, Shuffle and Weighted carries its bound cycle.  Note that in
  the source every non-leaf node (including Sequence and Fixed) pops a
  prime, because `buildfunc` allocates before dispatching on the node.
- `evalC` models running the compiled generator closures: it produces
  the flat token array (`resarray` in the source) and threads the
  mutable Shuffle state explicitly.  Shuffle state is keyed by the
  position (path) of the Shuffle node in the original tree, modelling
  the fact that the JS closure state is owned by the constructed node
  object itself, not by any particular compiled tree.
- `asmStep`, `asmRun` and `assemble` model the second loop of the
  factory function: the mode state machine for spacing, punctuation
  precedence, capitalization and the a/an rule.
-/

set_option maxRecDepth 100000

namespace Mutagen

/-- The user-facing node tree (the grammar). `null` is the JS `null`
node; strings are plain literals; the six parameterless constructors
are the identity-compared sentinel objects of the source. -/
inductive Node where
  | null : Node
  | str : String → Node
  | sequence : List Node → Node
  | choice : List Node → Node
  | shuffle : List Node → Node
  | weighted : List (Nat × Node) → Node
  | fixed : String → Node → Node
  | period : Node
  | comma : Node
  | semicolon : Node
  | dash : Node
  | aan : Node
  | concat : Node

/-- A compiled node: the result of `buildfunc`. Choice, Shuffle and
Weighted carry their bound cycle prime; Shuffle also carries the path
of the originating `Node.shuffle` in the source tree, which keys its
per-instance mutable state. `fixedC` is the transparent wrapper
closure produced for a Fixed node. -/
inductive CNode where
  | null : CNode
  | str : String → CNode
  | sequence : List CNode → CNode
  | choice : Nat → List CNode → CNode
  | shuffle : Nat → List Nat → List CNode → CNode
  | weighted : Nat → List (Nat × CNode) → CNode
  | fixedC : CNode → CNode
  | period : CNode
  | comma : CNode
  | semicolon : CNode
  | dash : CNode
  | aan : CNode
  | concat : CNode

/-- The stock of primes built into `Builder()` (lines 325-420 of the
source), in source order. JS pops from the end of this array. -/
def primeList : List Nat := [
  5009, 5011, 5021, 5023, 5039, 5051, 5059, 5077, 5081, 5087,
  5099, 5101, 5107, 5113, 5119, 5147, 5153, 5167, 5171, 5179,
  5189, 5197, 5209, 5227, 5231, 5233, 5237, 5261, 5273, 5279,
  5281, 5297, 5303, 5309, 5323, 5333, 5347, 5351, 5381, 5387,
  5393, 5399, 5407, 5413, 5417, 5419, 5431, 5437, 5441, 5443,
  5449, 5471, 5477, 5479, 5483, 5501, 5503, 5507, 5519, 5521,
  5527, 5531, 5557, 5563, 5569, 5573, 5581, 5591, 5623, 5639,
  5641, 5647, 5651, 5653, 5657, 5659, 5669, 5683, 5689, 5693,
  5701, 5711, 5717, 5737, 5741, 5743, 5749, 5779, 5783, 5791,
  5801, 5807, 5813, 5821, 5827, 5839, 5843, 5849, 5851, 5857,
  5861, 5867, 5869, 5879, 5881, 5897, 5903, 5923, 5927, 5939,
  5953, 5981, 5987, 6007, 6011, 6029, 6037, 6043, 6047, 6053,
  6067, 6073, 6079, 6089, 6091, 6101, 6113, 6121, 6131, 6133,
  6143, 6151, 6163, 6173, 6197, 6199, 6203, 6211, 6217, 6221,
  6229, 6247, 6257, 6263, 6269, 6271, 6277, 6287, 6299, 6301,
  6311, 6317, 6323, 6329, 6337, 6343, 6353, 6359, 6361, 6367,
  6373, 6379, 6389, 6397, 6421, 6427, 6449, 6451, 6469, 6473,
  6481, 6491, 6521, 6529, 6547, 6551, 6553, 6563, 6569, 6571,
  6577, 6581, 6599, 6607, 6619, 6637, 6653, 6659, 6661, 6673,
  6679, 6689, 6691, 6701, 6703, 6709, 6719, 6733, 6737, 6761,
  6763, 6779, 6781, 6791, 6793, 6803, 6823, 6827, 6829, 6833,
  6841, 6857, 6863, 6869, 6871, 6883, 6899, 6907, 6911, 6917,
  6947, 6949, 6959, 6961, 6967, 6971, 6977, 6983, 6991, 6997,
  7001, 7013, 7019, 7027, 7039, 7043, 7057, 7069, 7079, 7103,
  7109, 7121, 7127, 7129, 7151, 7159, 7177, 7187, 7193, 7207,
  7211, 7213, 7219, 7229, 7237, 7243, 7247, 7253, 7283, 7297,
  7307, 7309, 7321, 7331, 7333, 7349, 7351, 7369, 7393, 7411,
  7417, 7433, 7451, 7457, 7459, 7477, 7481, 7487, 7489, 7499,
  7507, 7517, 7523, 7529, 7537, 7541, 7547, 7549, 7559, 7561,
  7573, 7577, 7583, 7589, 7591, 7603, 7607, 7621, 7639, 7643,
  7649, 7669, 7673, 7681, 7687, 7691, 7699, 7703, 7717, 7723,
  7727, 7741, 7753, 7757, 7759, 7789, 7793, 7817, 7823, 7829,
  7841, 7853, 7867, 7873, 7877, 7879, 7883, 7901, 7907, 7919,
  7927, 7933, 7937, 7949, 7951, 7963, 7993, 8009, 8011, 8017,
  8039, 8053, 8059, 8069, 8081, 8087, 8089, 8093, 8101, 8111,
  8117, 8123, 8147, 8161, 8167, 8171, 8179, 8191, 8209, 8219,
  8221, 8231, 8233, 8237, 8243, 8263, 8269, 8273, 8287, 8291,
  8293, 8297, 8311, 8317, 8329, 8353, 8363, 8369, 8377, 8387,
  8389, 8419, 8423, 8429, 8431, 8443, 8447, 8461, 8467, 8501,
  8513, 8521, 8527, 8537, 8539, 8543, 8563, 8573, 8581, 8597,
  8599, 8609, 8623, 8627, 8629, 8641, 8647, 8663, 8669, 8677,
  8681, 8689, 8693, 8699, 8707, 8713, 8719, 8731, 8737, 8741,
  8747, 8753, 8761, 8779, 8783, 8803, 8807, 8819, 8821, 8831,
  8837, 8839, 8849, 8861, 8863, 8867, 8887, 8893, 8923, 8929,
  8933, 8941, 8951, 8963, 8969, 8971, 8999, 9001, 9007, 9011,
  9013, 9029, 9041, 9043, 9049, 9059, 9067, 9091, 9103, 9109,
  9127, 9133, 9137, 9151, 9157, 9161, 9173, 9181, 9187, 9199,
  9203, 9209, 9221, 9227, 9239, 9241, 9257, 9277, 9281, 9283,
  9293, 9311, 9319, 9323, 9337, 9341, 9343, 9349, 9371, 9377,
  9391, 9397, 9403, 9413, 9419, 9421, 9431, 9433, 9437, 9439,
  9461, 9463, 9467, 9473, 9479, 9491, 9497, 9511, 9521, 9533,
  9539, 9547, 9551, 9587, 9601, 9613, 9619, 9623, 9629, 9631,
  9643, 9649, 9661, 9677, 9679, 9689, 9697, 9719, 9721, 9733,
  9739, 9743, 9749, 9767, 9769, 9781, 9787, 9791, 9803, 9811,
  9817, 9829, 9833, 9839, 9851, 9857, 9859, 9871, 9883, 9887,
  9901, 9907, 9923, 9929, 9931, 9941, 9949, 9967, 9973, 10007,
  10009, 10037, 10039, 10061, 10067, 10069, 10079, 10091, 10093, 10099,
  10103, 10111, 10133, 10139, 10141, 10151, 10159, 10163, 10169, 10177,
  10181, 10193, 10211, 10223, 10243, 10247, 10253, 10259, 10267, 10271,
  10273, 10289, 10301, 10303, 10313, 10321, 10331, 10333, 10337, 10343,
  10357, 10369, 10391, 10399, 10427, 10429, 10433, 10453, 10457, 10459,
  10463, 10477, 10487, 10499, 10501, 10513, 10529, 10531, 10559, 10567,
  10589, 10597, 10601, 10607, 10613, 10627, 10631, 10639, 10651, 10657,
  10663, 10667, 10687, 10691, 10709, 10711, 10723, 10729, 10733, 10739,
  10753, 10771, 10781, 10789, 10799, 10831, 10837, 10847, 10853, 10859,
  10861, 10867, 10883, 10889, 10891, 10903, 10909, 10937, 10939, 10949,
  10957, 10973, 10979, 10987, 10993, 11003, 11027, 11047, 11057, 11059,
  11069, 11071, 11083, 11087, 11093, 11113, 11117, 11119, 11131, 11149,
  11159, 11161, 11171, 11173, 11177, 11197, 11213, 11239, 11243, 11251,
  11257, 11261, 11273, 11279, 11287, 11299, 11311, 11317, 11321, 11329,
  11351, 11353, 11369, 11383, 11393, 11399, 11411, 11423, 11437, 11443,
  11447, 11467, 11471, 11483, 11489, 11491, 11497, 11503, 11519, 11527,
  11549, 11551, 11579, 11587, 11593, 11597, 11617, 11621, 11633, 11657,
  11677, 11681, 11689, 11699, 11701, 11717, 11719, 11731, 11743, 11777,
  11779, 11783, 11789, 11801, 11807, 11813, 11821, 11827, 11831, 11833,
  11839, 11863, 11867, 11887, 11897, 11903, 11909, 11923, 11927, 11933,
  11939, 11941, 11953, 11959, 11969, 11971, 11981, 11987, 12007, 12011,
  12037, 12041, 12043, 12049, 12071, 12073, 12097, 12101, 12107, 12109,
  12113, 12119, 12143, 12149, 12157, 12161, 12163, 12197, 12203, 12211,
  12227, 12239, 12241, 12251, 12253, 12263, 12269, 12277, 12281, 12289,
  12301, 12323, 12329, 12343, 12347, 12373, 12377, 12379, 12391, 12401,
  12409, 12413, 12421, 12433, 12437, 12451, 12457, 12473, 12479, 12487,
  12491, 12497, 12503, 12511, 12517, 12527, 12539, 12541, 12547, 12553,
  12569, 12577, 12583, 12589, 12601, 12611, 12613, 12619, 12637, 12641,
  12647, 12653, 12659, 12671, 12689, 12697, 12703, 12713, 12721, 12739,
  12743, 12757, 12763, 12781, 12791, 12799, 12809, 12821, 12823, 12829,
  12841, 12853, 12889, 12893, 12899, 12907, 12911, 12917, 12919, 12923,
  12941, 12953, 12959, 12967, 12973, 12979, 12983, 13001, 13003, 13007,
  13009, 13033, 13037, 13043, 13049, 13063, 13093, 13099, 13103, 13109,
  13121, 13127, 13147, 13151, 13159, 13163, 13171, 13177, 13183, 13187,
  13217, 13219, 13229, 13241, 13249, 13259, 13267, 13291, 13297, 13309,
  13313, 13327, 13331, 13337, 13339, 13367, 13381, 13397, 13399, 13411,
  13417, 13421, 13441, 13451, 13457, 13463, 13469, 13477, 13487, 13499,
  13513, 13523, 13537, 13553, 13567, 13577, 13591, 13597, 13613, 13619]

/-- Compilation state: the remaining prime pool and the label map of
`Builder()` (`primelist` and `fixedmap`). The label map is an
association list; entries are only ever added, never changed. -/
structure BuildState where
  pool : List Nat
  fixedmap : List (String × Nat)
deriving DecidableEq

/-- The compilation error: `throw "Out of cycle primes"`. -/
inductive BuildErr where
  | poolExhausted : BuildErr
deriving DecidableEq

/-- `primelist.pop()` followed by the `if (!cycle) throw` check: take
the last prime off the pool, or fail when the pool is empty. -/
def popPrime (st : BuildState) : Except BuildErr (Nat × BuildState) :=
  match st.pool.getLast? with
  | none => .error .poolExhausted
  | some p => .ok (p, { st with pool := st.pool.dropLast })

/-- The cycle allocation step of `buildfunc`: with no label (or with
the empty label, which is falsy in JS) pop a fresh prime; otherwise
reuse the prime recorded for the label in `fixedmap`, or pop a fresh
one and record it. -/
def allocCycle (label : Option String) (st : BuildState) :
    Except BuildErr (Nat × BuildState) :=
  match label with
  | none => popPrime st
  | some lab =>
    if lab = "" then popPrime st
    else
      match st.fixedmap.lookup lab with
      | some p => .ok (p, st)
      | none =>
        match popPrime st with
        | .error e => .error e
        | .ok (p, st1) =>
          .ok (p, { st1 with fixedmap := (lab, p) :: st1.fixedmap })

mutual

/-- `buildfunc(node, label)`. Falsy nodes (null and the empty string)
compile to a no-op; strings and sentinels compile to emitting
closures; every other node first allocates a cycle (even Sequence and
Fixed, whose cycle goes unused) and then compiles its children. The
`path` argument records the position of the node in the original tree
and exists only to key Shuffle instance state. -/
def build : Node → List Nat → Option String → BuildState →
    Except BuildErr (CNode × BuildState)
  | .null, _, _, st => .ok (.null, st)
  | .str s, _, _, st =>
    if s = "" then .ok (.null, st) else .ok (.str s, st)
  | .period, _, _, st => .ok (.period, st)
  | .comma, _, _, st => .ok (.comma, st)
  | .semicolon, _, _, st => .ok (.semicolon, st)
  | .dash, _, _, st => .ok (.dash, st)
  | .aan, _, _, st => .ok (.aan, st)
  | .concat, _, _, st => .ok (.concat, st)
  | .sequence cs, path, label, st =>
    match allocCycle label st with
    | .error e => .error e
    | .ok (_, st1) =>
      match buildList cs path 0 st1 with
      | .error e => .error e
      | .ok (ccs, st2) => .ok (.sequence ccs, st2)
  | .choice cs, path, label, st =>
    match allocCycle label st with
    | .error e => .error e
    | .ok (cyc, st1) =>
      match buildList cs path 0 st1 with
      | .error e => .error e
      | .ok (ccs, st2) => .ok (.choice cyc ccs, st2)
  | .shuffle cs, path, label, st =>
    match allocCycle label st with
    | .error e => .error e
    | .ok (cyc, st1) =>
      match buildList cs path 0 st1 with
      | .error e => .error e
      | .ok (ccs, st2) => .ok (.shuffle cyc path ccs, st2)
  | .weighted ps, path, label, st =>
    match allocCycle label st with
    | .error e => .error e
    | .ok (cyc, st1) =>
      match buildPairs ps path 0 st1 with
      | .error e => .error e
      | .ok (cps, st2) => .ok (.weighted cyc cps, st2)
  | .fixed lab child, path, label, st =>
    match allocCycle label st with
    | .error e => .error e
    | .ok (_, st1) =>
      match build child (path ++ [0]) (some lab) st1 with
      | .error e => .error e
      | .ok (cc, st2) => .ok (.fixedC cc, st2)

/-- Compile a list of children in order, as the loops in Sequence,
Choice and Shuffle do; each child is built with no label. -/
def buildList : List Node → List Nat → Nat → BuildState →
    Except BuildErr (List CNode × BuildState)
  | [], _, _, st => .ok ([], st)
  | c :: rest, path, ix, st =>
    match build c (path ++ [ix]) none st with
    | .error e => .error e
    | .ok (cc, st1) =>
      match buildList rest path (ix + 1) st1 with
      | .error e => .error e
      | .ok (crest, st2) => .ok (cc :: crest, st2)

/-- Compile the (weight, node) pairs of a Weighted node in order. -/
def buildPairs : List (Nat × Node) → List Nat → Nat → BuildState →
    Except BuildErr (List (Nat × CNode) × BuildState)
  | [], _, _, st => .ok ([], st)
  | (w, c) :: rest, path, ix, st =>
    match build c (path ++ [ix]) none st with
    | .error e => .error e
    | .ok (cc, st1) =>
      match buildPairs rest path (ix + 1) st1 with
      | .error e => .error e
      | .ok (crest, st2) => .ok ((w, cc) :: crest, st2)

end

/-- The initial compilation state of a fresh `Builder()`. -/
def initBuildState : BuildState := ⟨primeList, []⟩

/-- `Builder()(node)`: compile a whole tree with a fresh prime pool
and an empty label map, as each call of `Factory` does. -/
def compileNode (t : Node) : Except BuildErr (CNode × BuildState) :=
  build t [] none initBuildState

/-- The mutable per-Shuffle state of the source: the pending `order`
array (modelled as the list of remaining child indices, popped from
the end) and the one-element `seedstore` array, initialized to -1. -/
structure ShuffleState where
  order : List Nat
  seedstore : Int
deriving DecidableEq

/-- The state a Shuffle closure is created with: empty order, seed -1. -/
def initShuffleState : ShuffleState := ⟨[], -1⟩

/-- The collection of all Shuffle instance states, keyed by the path of
the Shuffle node in the constructed tree (JS object identity). Lookup
of an absent key yields the construction-time initial state. -/
abbrev Store : Type := List (List Nat × ShuffleState)

/-- The store in which every Shuffle node is freshly constructed. -/
def initStore : Store := []

/-- Read the state cell of the Shuffle node at `path`. -/
def getState (σ : Store) (path : List Nat) : ShuffleState :=
  (List.lookup path σ).getD initShuffleState

/-- Overwrite the state cell of the Shuffle node at `path`. -/
def updateStore (σ : Store) (path : List Nat) (s : ShuffleState) : Store :=
  (path, s) :: σ

/-- Exchange the entries at positions `i` and `j`, as the three-line
swap in the Shuffle generator does (a no-op when `i = j`). -/
def swapAt (l : List Nat) (i j : Nat) : List Nat :=
  (l.set i (l.getD j 0)).set j (l.getD i 0)

/-- Refill the `order` array: push the indices `0..n-1` and run the
seeded swap pass `order[ix] <-> order[jx]` with
`jx = (seed mod (cycle + 2 ix)) mod n` for `ix = 0..n-1`. -/
def shuffleFill (n cycle seed : Nat) : List Nat :=
  (List.range n).foldl
    (fun ord ix => swapAt ord ix ((seed % (cycle + 2 * ix)) % n)) (List.range n)

/-- One invocation of a compiled Shuffle generator, acting on its
state: reset the order when the seed changed, refill it when empty,
then pop the last entry as the selected child index. -/
def shuffleStep (n cycle seed : Nat) (s : ShuffleState) :
    Option Nat × ShuffleState :=
  let ord0 := if (seed : Int) ≠ s.seedstore then [] else s.order
  let ord1 := if ord0.isEmpty then shuffleFill n cycle seed else ord0
  match ord1.getLast? with
  | none => (none, ⟨[], (seed : Int)⟩)
  | some jx => (some jx, ⟨ord1.dropLast, (seed : Int)⟩)

/-- A token of the raw work array `resarray`: a plain string or one of
the sentinel objects. -/
inductive Tok where
  | word : String → Tok
  | period : Tok
  | comma : Tok
  | semicolon : Tok
  | dash : Tok
  | aan : Tok
  | concat : Tok
deriving DecidableEq

/-- The total weight of a Weighted node, summed at build time in the
source; the selection formula reduces the seed modulo this value. -/
def sumWeights (ps : List (Nat × CNode)) : Nat :=
  (ps.map Prod.fst).sum

mutual

/-- Run a compiled generator: produce its token output and the updated
Shuffle store (the source appends to `resarray`; we return the
appended tokens). Selection formulas are exactly those of the source:
Choice takes child `(seed mod cycle) mod n`, Weighted walks its pairs
subtracting weights from `(seed mod cycle) mod total`, Shuffle pops
its order via `shuffleStep`. -/
def evalC : CNode → Nat → Store → List Tok × Store
  | CNode.null, _, σ => ([], σ)
  | CNode.str s, _, σ => ([Tok.word s], σ)
  | CNode.period, _, σ => ([Tok.period], σ)
  | CNode.comma, _, σ => ([Tok.comma], σ)
  | CNode.semicolon, _, σ => ([Tok.semicolon], σ)
  | CNode.dash, _, σ => ([Tok.dash], σ)
  | CNode.aan, _, σ => ([Tok.aan], σ)
  | CNode.concat, _, σ => ([Tok.concat], σ)
  | CNode.sequence cs, seed, σ => evalSeq cs seed σ
  | CNode.choice cyc cs, seed, σ => evalNth cs ((seed % cyc) % cs.length) seed σ
  | CNode.weighted cyc ps, seed, σ =>
    evalWalk ps ((seed % cyc) % sumWeights ps) seed σ
  | CNode.shuffle cyc path cs, seed, σ =>
    match shuffleStep cs.length cyc seed (getState σ path) with
    | (none, s1) => ([], updateStore σ path s1)
    | (some jx, s1) => evalNth cs jx seed (updateStore σ path s1)
  | CNode.fixedC c, seed, σ => evalC c seed σ

/-- Evaluate the children of a Sequence in order, concatenating their
token output and threading the store. -/
def evalSeq : List CNode → Nat → Store → List Tok × Store
  | [], _, σ => ([], σ)
  | c :: rest, seed, σ =>
    match evalC c seed σ with
    | (ts1, σ1) =>
      match evalSeq rest seed σ1 with
      | (ts2, σ2) => (ts1 ++ ts2, σ2)

/-- Evaluate the `ix`-th child of a list (out-of-range evaluates to
nothing; unreachable for the indices the selection formulas produce on
nonempty child lists). -/
def evalNth : List CNode → Nat → Nat → Store → List Tok × Store
  | [], _, _, σ => ([], σ)
  | c :: _, 0, seed, σ => evalC c seed σ
  | _ :: rest, ix + 1, seed, σ => evalNth rest ix seed σ

/-- The selection loop of a compiled Weighted generator: walk the
(weight, child) pairs, evaluating the first whose weight exceeds the
remaining value and otherwise subtracting the weight. -/
def evalWalk : List (Nat × CNode) → Nat → Nat → Store → List Tok × Store
  | [], _, _, σ => ([], σ)
  | (w, c) :: rest, v, seed, σ =>
    if v < w then evalC c seed σ else evalWalk rest (v - w) seed σ

end

/-- The assembler modes (`Mode_Beginning` .. `Mode_Concat`). -/
inductive Mode where
  | beginning : Mode
  | newSentence : Mode
  | interword : Mode
  | commaM : Mode
  | semicolonM : Mode
  | dashM : Mode
  | aanM : Mode
  | concatM : Mode
deriving DecidableEq

/-- `val.substr(0,1).toUpperCase() + val.substr(1)`: uppercase the
first character of a string. -/
def capFirst (s : String) : String :=
  match s.data with
  | [] => ""
  | c :: rest => String.mk (c.toUpper :: rest)

/-- The regex `/^[aeiou]/i`: does the string start with a vowel,
case-insensitively? -/
def startsVowel (s : String) : Bool :=
  match s.data with
  | [] => false
  | c :: _ => ['a', 'e', 'i', 'o', 'u'].contains c.toLower

/-- The separator pieces pushed ahead of an emitted word, by current
mode (the `switch (mode)` of the source; `Mode_Beginning` has no case
and so pushes nothing). In mode `aanM` an "n" is pushed first when the
word starts with a vowel. -/
def sepFor (m : Mode) (val : String) : List String :=
  match m with
  | .concatM => []
  | .interword => [" "]
  | .commaM => [", "]
  | .semicolonM => ["; "]
  | .dashM => [" -- "]
  | .aanM => (if startsVowel val then ["n"] else []) ++ [" "]
  | .newSentence => [". "]
  | .beginning => []

/-- Emit one word value: capitalize it when the mode is `beginning` or
`newSentence`, push the separator for the current mode, push the word,
and continue in mode `next` (`interword`, or `aanM` for the AAn
token). -/
def emitWord (m : Mode) (w : String) (next : Mode) : List String × Mode :=
  let val := if m = Mode.beginning ∨ m = Mode.newSentence then capFirst w else w
  (sepFor m val ++ [val], next)

/-- One iteration of the assembler loop body: process one token in the
current mode, returning the emitted output pieces and the next mode.
Punctuation tokens emit nothing now; a mark only replaces a strictly
weaker pending mark (Period unconditionally, Semicolon over
Dash/Comma/Interword, Dash over Comma/Interword, Comma over Interword
only). The AAn token is emitted as the word "a" with next mode `aanM`.
A falsy (empty) word is skipped. -/
def asmStep (m : Mode) (t : Tok) : List String × Mode :=
  match t with
  | .period => ([], Mode.newSentence)
  | .comma => ([], if m = Mode.interword then Mode.commaM else m)
  | .dash =>
    ([], if m = Mode.interword ∨ m = Mode.commaM then Mode.dashM else m)
  | .semicolon =>
    ([], if m = Mode.interword ∨ m = Mode.commaM ∨ m = Mode.dashM then
      Mode.semicolonM else m)
  | .concat => ([], Mode.concatM)
  | .aan => emitWord m "a" Mode.aanM
  | .word w => if w = "" then ([], m) else emitWord m w Mode.interword

/-- Run the assembler loop over a token list from a given mode. -/
def asmRun : List Tok → Mode → List String × Mode
  | [], m => ([], m)
  | t :: rest, m =>
    match asmStep m t with
    | (ps, m1) =>
      match asmRun rest m1 with
      | (ps2, m2) => (ps ++ ps2, m2)

/-- The full assembly pass of the factory: run the state machine from
`beginning`, append the trailing period when the final mode calls for
one, and join the pieces. -/
def assemble (toks : List Tok) : String :=
  match asmRun toks Mode.beginning with
  | (ps, m) =>
    String.join
      (if m = Mode.beginning ∨ m = Mode.newSentence then ps else ps ++ ["."])

/-- One `Factory(node)` call followed by one `factory(seed)` call: a
fresh `Builder()` compiles the tree (fresh prime pool, fresh label
map), then the compiled generators run against the given Shuffle
store (the store belongs to the constructed node objects, so it is an
input, not reset by compilation) and the work array is assembled. -/
def factoryCall (t : Node) (seed : Nat) (σ : Store) :
    Except BuildErr (String × Store) :=
  match compileNode t with
  | .error e => .error e
  | .ok (ct, _) =>
    match evalC ct seed σ with
    | (toks, σ1) => .ok (assemble toks, σ1)

/-- Compile a tree freshly and evaluate it once at `seed`, with every
Shuffle node freshly constructed: the output string of one independent
`Factory(node)(seed)` round trip. -/
def mutagenFresh (t : Node) (seed : Nat) : Except BuildErr String :=
  (factoryCall t seed initStore).map Prod.fst

/-- Repeated invocations of one compiled Shuffle generator: the list of
child indices emitted by `k` consecutive calls, all with the same
seed, starting from state `s`. -/
def shuffleRun (n cycle seed : Nat) : Nat → ShuffleState → List Nat
  | 0, _ => []
  | k + 1, s =>
    match shuffleStep n cycle seed s with
    | (none, s1) => shuffleRun n cycle seed k s1
    | (some j, s1) => j :: shuffleRun n cycle seed k s1

/-- The branch index selected by the Weighted walk for a remaining
value `v` over the weight list `ws`: the walk subtracts weights until
the next subtraction would go negative. -/
def selIdx : List Nat → Nat → Nat
  | [], _ => 0
  | w :: rest, v => if v < w then 0 else selIdx rest (v - w) + 1

/-- The subtree of a node tree at a path, under the same child
numbering that `build` uses to key Shuffle state: the `i`-th child of
a Sequence/Choice/Shuffle, the node of the `i`-th pair of a Weighted,
and the single child of a Fixed at index 0. -/
def subtreeAt : Node → List Nat → Option Node
  | n, [] => some n
  | Node.sequence cs, i :: p =>
    match cs.get? i with
    | some c => subtreeAt c p
    | none => none
  | Node.choice cs, i :: p =>
    match cs.get? i with
    | some c => subtreeAt c p
    | none => none
  | Node.shuffle cs, i :: p =>
    match cs.get? i with
    | some c => subtreeAt c p
    | none => none
  | Node.weighted ps, i :: p =>
    match ps.get? i with
    | some (_, c) => subtreeAt c p
    | none => none
  | Node.fixed _ c, 0 :: p => subtreeAt c p
  | _, _ :: _ => none

/-- The subtree of a compiled tree at a path; `build` preserves the
tree shape, so compiled subtrees sit at the same paths as their
sources. -/
def csubtreeAt : CNode → List Nat → Option CNode
  | n, [] => some n
  | CNode.sequence cs, i :: p =>
    match cs.get? i with
    | some c => csubtreeAt c p
    | none => none
  | CNode.choice _ cs, i :: p =>
    match cs.get? i with
    | some c => csubtreeAt c p
    | none => none
  | CNode.shuffle _ _ cs, i :: p =>
    match cs.get? i with
    | some c => csubtreeAt c p
    | none => none
  | CNode.weighted _ ps, i :: p =>
    match ps.get? i with
    | some (_, c) => csubtreeAt c p
    | none => none
  | CNode.fixedC c, 0 :: p => csubtreeAt c p
  | _, _ :: _ => none

/-- How many fresh primes one cycle allocation costs, and the labels
recorded afterwards: no label (or the falsy empty label) always costs
one fresh prime; a label already seen costs none; a new label costs
one and is recorded. -/
def consumeCount (label : Option String) (seen : List String) :
    Nat × List String :=
  match label with
  | none => (1, seen)
  | some lab =>
    if lab = "" then (1, seen)
    else if lab ∈ seen then (0, seen) else (1, lab :: seen)

mutual

/-- The number of primes compilation removes from the pool, stated
from the corrected specification: every non-leaf node (Sequence,
Choice, Shuffle, Weighted and Fixed alike) costs one fresh prime
unless it is built directly under an already-seen non-empty label;
literal, null and sentinel nodes cost nothing. Returns the count and
the updated set of seen labels. -/
def specPrimes : Node → Option String → List String → Nat × List String
  | Node.null, _, seen => (0, seen)
  | Node.str _, _, seen => (0, seen)
  | Node.period, _, seen => (0, seen)
  | Node.comma, _, seen => (0, seen)
  | Node.semicolon, _, seen => (0, seen)
  | Node.dash, _, seen => (0, seen)
  | Node.aan, _, seen => (0, seen)
  | Node.concat, _, seen => (0, seen)
  | Node.sequence cs, label, seen =>
    match consumeCount label seen with
    | (k, seen1) =>
      match specPrimesList cs seen1 with
      | (k2, seen2) => (k + k2, seen2)
  | Node.choice cs, label, seen =>
    match consumeCount label seen with
    | (k, seen1) =>
      match specPrimesList cs seen1 with
      | (k2, seen2) => (k + k2, seen2)
  | Node.shuffle cs, label, seen =>
    match consumeCount label seen with
    | (k, seen1) =>
      match specPrimesList cs seen1 with
      | (k2, seen2) => (k + k2, seen2)
  | Node.weighted ps, label, seen =>
    match consumeCount label seen with
    | (k, seen1) =>
      match specPrimesPairs ps seen1 with
      | (k2, seen2) => (k + k2, seen2)
  | Node.fixed lab child, label, seen =>
    match consumeCount label seen with
    | (k, seen1) =>
      match specPrimes child (some lab) seen1 with
      | (k2, seen2) => (k + k2, seen2)

/-- Prime cost of a list of unlabeled children, in order. -/
def specPrimesList : List Node → List String → Nat × List String
  | [], seen => (0, seen)
  | c :: rest, seen =>
    match specPrimes c none seen with
    | (k, seen1) =>
      match specPrimesList rest seen1 with
      | (k2, seen2) => (k + k2, seen2)

/-- Prime cost of the children of a Weighted node, in order. -/
def specPrimesPairs : List (Nat × Node) → List String → Nat × List String
  | [], seen => (0, seen)
  | (_, c) :: rest, seen =>
    match specPrimes c none seen with
    | (k, seen1) =>
      match specPrimesPairs rest seen1 with
      | (k2, seen2) => (k + k2, seen2)

end

mutual

/-- The number of Weighted and Shuffle nodes in a tree (the choice
points that the original claim says are the only prime consumers). -/
def wsCount : Node → Nat
  | Node.weighted ps => 1 + wsCountPairs ps
  | Node.shuffle cs => 1 + wsCountList cs
  | Node.choice cs => wsCountList cs
  | Node.sequence cs => wsCountList cs
  | Node.fixed _ c => wsCount c
  | _ => 0

/-- Sum of `wsCount` over a list of children. -/
def wsCountList : List Node → Nat
  | [] => 0
  | c :: rest => wsCount c + wsCountList rest

/-- Sum of `wsCount` over Weighted children. -/
def wsCountPairs : List (Nat × Node) → Nat
  | [] => 0
  | (_, c) :: rest => wsCount c + wsCountPairs rest

end

mutual

/-- All Fixed labels occurring in a tree, in occurrence order. -/
def labelsOf : Node → List String
  | Node.fixed lab c => lab :: labelsOf c
  | Node.sequence cs => labelsOfList cs
  | Node.choice cs => labelsOfList cs
  | Node.shuffle cs => labelsOfList cs
  | Node.weighted ps => labelsOfPairs ps
  | _ => []

/-- Labels of a list of children. -/
def labelsOfList : List Node → List String
  | [] => []
  | c :: rest => labelsOf c ++ labelsOfList rest

/-- Labels of Weighted children. -/
def labelsOfPairs : List (Nat × Node) → List String
  | [] => []
  | (_, c) :: rest => labelsOf c ++ labelsOfPairs rest

end

/-- The prime count asserted by the original claim: one per
Weighted/Shuffle choice point plus one per distinct label. -/
def claimedPrimeCount (t : Node) : Nat :=
  wsCount t + (labelsOf t).dedup.length

/-- The first alphabetic character of a string, if any. -/
def firstAlpha (s : String) : Option Char :=
  s.data.find? Char.isAlpha

/-- The precedence rank of a pending-separator assembler mode
(`interword` weakest, then comma, dash, semicolon, and a pending
sentence break strongest); modes that are not pending separators rank
zero, and are not quantified over where this is used. -/
def modeStrength : Mode → Nat
  | Mode.interword => 0
  | Mode.commaM => 1
  | Mode.dashM => 2
  | Mode.semicolonM => 3
  | Mode.newSentence => 4
  | _ => 0

/-- The precedence rank of a punctuation token. -/
def tokStrength : Tok → Nat
  | Tok.comma => 1
  | Tok.dash => 2
  | Tok.semicolon => 3
  | Tok.period => 4
  | _ => 0

/-- The pending-separator mode of a given precedence rank. -/
def modeOfStrength : Nat → Mode
  | 0 => Mode.interword
  | 1 => Mode.commaM
  | 2 => Mode.dashM
  | 3 => Mode.semicolonM
  | _ => Mode.newSentence

/-- A nest of `k` Sequence nodes around a single literal: a tree with
no Weighted or Shuffle node and no label anywhere. -/
def seqNest : Nat → Node
  | 0 => Node.str "x"
  | k + 1 => Node.sequence [seqNest k]

/-! ## Theorems -/

/-- Claim C1: for every node tree and every non-negative seed `s`,
compiling the tree freshly and then calling the resulting factory once
with `s`, done twice independently (fresh compiled tree and freshly
constructed Shuffle state each time, so that Shuffle memo effects do
not intervene), yields identical output strings. -/
theorem c1_determinism (t : Node) (s : Nat) (out1 out2 : String)
    (h1 : mutagenFresh t s = .ok out1) (h2 : mutagenFresh t s = .ok out2) :
    out1 = out2 := by
  rw [h1] at h2
  injection h2

/-- Witness for C1 at the tree `Sequence("hello")` and seed 0. -/
theorem c1_determinism_witness :
    mutagenFresh (Node.sequence [Node.str "hello"]) 0 = .ok "Hello." ∧
    ("Hello." : String) = "Hello." :=
  ⟨rfl, c1_determinism (Node.sequence [Node.str "hello"]) 0 "Hello." "Hello."
    rfl rfl⟩

/-- Claim C6: in the assembler, a stronger punctuation mark arriving
while a weaker one is pending replaces it, and a weaker mark never
downgrades a pending stronger one, with precedence
Period > Semicolon > Dash > Comma > Interword (the resulting pending
mode is the one of maximal strength); in particular
`Sequence("hello", Comma, Period, "goodbye")` produces exactly
`"Hello. Goodbye."`. -/
theorem c6_punctuation_dominance (m : Mode) (t : Tok)
    (hm : m = Mode.interword ∨ m = Mode.commaM ∨ m = Mode.dashM ∨
      m = Mode.semicolonM ∨ m = Mode.newSentence)
    (ht : t = Tok.comma ∨ t = Tok.dash ∨ t = Tok.semicolon ∨ t = Tok.period) :
    asmStep m t = ([], modeOfStrength (max (modeStrength m) (tokStrength t))) ∧
    mutagenFresh (Node.sequence
      [Node.str "hello", Node.comma, Node.period, Node.str "goodbye"]) 0 =
      .ok "Hello. Goodbye." := by
  constructor
  · rcases hm with h | h | h | h | h <;> subst h <;>
      rcases ht with h | h | h | h <;> subst h <;> rfl
  · rfl

/-- Witness for C6 at a pending comma overridden by a period. -/
theorem c6_punctuation_dominance_witness :
    asmStep Mode.commaM Tok.period =
      ([], modeOfStrength (max (modeStrength Mode.commaM)
        (tokStrength Tok.period))) ∧
    mutagenFresh (Node.sequence
      [Node.str "hello", Node.comma, Node.period, Node.str "goodbye"]) 0 =
      .ok "Hello. Goodbye." :=
  c6_punctuation_dominance Mode.commaM Tok.period
    (Or.inr (Or.inl rfl)) (Or.inr (Or.inr (Or.inr rfl)))

/-- Claim C7: an AAn token is emitted as the word "a" with follow-up
mode `aanM`, and a word token processed in mode `aanM` (that is,
immediately following the AAn token) gets an "n" appended to that "a"
exactly when it starts with a vowel, tested case-insensitively against
a, e, i, o, u; in particular `Sequence(AAn, "elephant")` evaluates to
`"An elephant."` and `Sequence(AAn, "cat")` to `"A cat."`. -/
theorem c7_aan_vowel_rule (m : Mode) (w : String) (hw : w ≠ "") :
    asmStep m Tok.aan = emitWord m "a" Mode.aanM ∧
    asmStep Mode.aanM (Tok.word w) =
      ((if startsVowel w then ["n"] else []) ++ [" ", w], Mode.interword) ∧
    mutagenFresh (Node.sequence [Node.aan, Node.str "elephant"]) 0 =
      .ok "An elephant." ∧
    mutagenFresh (Node.sequence [Node.aan, Node.str "cat"]) 0 =
      .ok "A cat." := by
  refine ⟨rfl, ?_, rfl, rfl⟩
  simp only [asmStep, if_neg hw, emitWord, sepFor]
  by_cases h : startsVowel w <;> simp [h]

/-- Witness for C7 at the word "elephant". -/
theorem c7_aan_vowel_rule_witness :
    ("elephant" : String) ≠ "" ∧
    (asmStep Mode.beginning Tok.aan = emitWord Mode.beginning "a" Mode.aanM ∧
     asmStep Mode.aanM (Tok.word "elephant") =
       ((if startsVowel "elephant" then ["n"] else []) ++ [" ", "elephant"],
         Mode.interword) ∧
     mutagenFresh (Node.sequence [Node.aan, Node.str "elephant"]) 0 =
       .ok "An elephant." ∧
     mutagenFresh (Node.sequence [Node.aan, Node.str "cat"]) 0 =
       .ok "A cat.") :=
  ⟨by decide, c7_aan_vowel_rule Mode.beginning "elephant" (by decide)⟩

/-- Claim C10: Shuffle instance state is owned by the constructed
Shuffle node (keyed here by its path), not by a compiled tree, so two
separate `Factory` calls over the same tree share the queue and the
seed cell: after one factory evaluates `Shuffle("one","two")` at
seed 0 and emits "One.", a second, separately compiled factory for the
same tree evaluated at the same seed starts from the mutated store and
emits "Two." instead of repeating "One.". -/
theorem c10_shuffle_state_shared :
    factoryCall (Node.shuffle [Node.str "one", Node.str "two"]) 0 initStore =
      .ok ("One.", [([], ⟨[1], 0⟩)]) ∧
    factoryCall (Node.shuffle [Node.str "one", Node.str "two"]) 0
      [([], ⟨[1], 0⟩)] =
      .ok ("Two.", [([], ⟨[], 0⟩), ([], ⟨[1], 0⟩)]) ∧
    ("Two." : String) ≠ "One." :=
  ⟨rfl, rfl, by decide⟩

/-- Counterexample to claim C8 as stated: the tree
`Sequence(Concat, "hello")` evaluates (at seed 0) to the non-empty
string `"hello."`, whose first alphabetic character is the lowercase
letter h: a leading Concat token puts the assembler in `concatM` mode,
which suppresses the beginning-of-output capitalization. -/
theorem c8_counterexample :
    mutagenFresh (Node.sequence [Node.concat, Node.str "hello"]) 0 =
      .ok "hello." ∧
    firstAlpha "hello." = some 'h' ∧ ('h').isUpper = false :=
  ⟨rfl, rfl, by decide⟩

/-- Counterexample to claim C5 as stated: compiling
`Sequence("hello")`, a tree with no Weighted/Shuffle node and no
label, nevertheless removes one prime from the 940-element pool,
because `buildfunc` pops a prime for every non-leaf node, Sequence
included. -/
theorem c5_counterexample :
    (compileNode (Node.sequence [Node.str "hello"])).map
      (fun r => r.2.pool.length) = .ok 939 ∧
    primeList.length = 940 ∧
    claimedPrimeCount (Node.sequence [Node.str "hello"]) = 0 :=
  ⟨rfl, rfl, rfl⟩

/-- Counterexample to claim C4 as stated: two Fixed nodes sharing the
label "" (a falsy string in JS, treated as no label at all by
`buildfunc`), each wrapping a Weighted node with weights (1, 1), do
not share a cycle: compiled under one Factory they receive the
distinct primes 13597 and 13577, and at seed 13578 the first selects
branch 0 while the second selects branch 1, producing the output
"X y." in which the two selections visibly disagree. -/
theorem c4_counterexample :
    (compileNode (Node.sequence
      [Node.fixed "" (Node.weighted [(1, Node.str "x"), (1, Node.str "y")]),
       Node.fixed "" (Node.weighted [(1, Node.str "x"), (1, Node.str "y")])])).map
      (fun r => (csubtreeAt r.1 [0], csubtreeAt r.1 [1])) =
      .ok
        (some (CNode.fixedC (CNode.weighted 13597
          [(1, CNode.str "x"), (1, CNode.str "y")])),
         some (CNode.fixedC (CNode.weighted 13577
          [(1, CNode.str "x"), (1, CNode.str "y")]))) ∧
    selIdx [1, 1] ((13578 % 13597) % 2) = 0 ∧
    selIdx [1, 1] ((13578 % 13577) % 2) = 1 ∧
    mutagenFresh (Node.sequence
      [Node.fixed "" (Node.weighted [(1, Node.str "x"), (1, Node.str "y")]),
       Node.fixed "" (Node.weighted [(1, Node.str "x"), (1, Node.str "y")])])
      13578 = .ok "X y." :=
  ⟨rfl, by decide, by decide, rfl⟩

/-- The Weighted walk, characterized: when every weight is positive
and the remaining value is below the total, the walk selects exactly
the index whose weight-prefix-sum window contains the value. -/
theorem evalWalk_spec (seed : Nat) (σ : Store) (ps : List (Nat × CNode)) :
    ∀ v, (∀ w ∈ ps.map Prod.fst, 0 < w) → v < sumWeights ps →
    ∃ (d : Nat) (hd : d < ps.length),
      ((ps.map Prod.fst).take d).sum ≤ v ∧
      v < ((ps.map Prod.fst).take (d + 1)).sum ∧
      d = selIdx (ps.map Prod.fst) v ∧
      evalWalk ps v seed σ = evalC (ps.get ⟨d, hd⟩).2 seed σ := by
  induction ps with
  | nil => intro v _ hv; simp [sumWeights] at hv
  | cons hd0 rest ih =>
    obtain ⟨w, c⟩ := hd0
    intro v hpos hv
    by_cases hlt : v < w
    · refine ⟨0, by simp, by simp, ?_, ?_, ?_⟩
      · simpa using hlt
      · simp [selIdx, hlt]
      · simp [evalWalk, hlt, List.get]
    · push_neg at hlt
      have hsum : sumWeights ((w, c) :: rest) = w + sumWeights rest := by
        simp [sumWeights]
      have hv' : v - w < sumWeights rest := by omega
      have hpos' : ∀ x ∈ rest.map Prod.fst, 0 < x := by
        intro x hx
        exact hpos x (by simp [hx])
      obtain ⟨d, hd, h1, h2, h3, h4⟩ := ih (v - w) hpos' hv'
      refine ⟨d + 1, by simpa using Nat.succ_lt_succ hd, ?_, ?_, ?_, ?_⟩
      · simp only [List.map_cons, List.take_succ_cons, List.sum_cons]
        omega
      · simp only [List.map_cons, List.take_succ_cons, List.sum_cons]
        omega
      · simp [selIdx, Nat.not_lt.mpr hlt, ← h3]
      · simpa [evalWalk, Nat.not_lt.mpr hlt] using h4

/-- Claim C2: for every compiled Weighted node with cycle `cyc`,
ordered pairs of positive weights, and every seed, the child evaluated
is exactly the one found by computing `(seed mod cyc) mod total` and
walking the pairs in order, subtracting each weight until the
subtraction would go negative: the selected index `d` is the unique
one whose weight-prefix-sum window contains that value. -/
theorem c2_weighted_selection (cyc : Nat) (ps : List (Nat × CNode))
    (seed : Nat) (σ : Store)
    (hpos : ∀ w ∈ ps.map Prod.fst, 0 < w) (hne : ps ≠ []) :
    ∃ (d : Nat) (hd : d < ps.length),
      ((ps.map Prod.fst).take d).sum ≤ (seed % cyc) % sumWeights ps ∧
      (seed % cyc) % sumWeights ps <
        ((ps.map Prod.fst).take (d + 1)).sum ∧
      d = selIdx (ps.map Prod.fst) ((seed % cyc) % sumWeights ps) ∧
      evalC (CNode.weighted cyc ps) seed σ =
        evalC (ps.get ⟨d, hd⟩).2 seed σ := by
  have htot : 0 < sumWeights ps := by
    match ps, hne with
    | (w, c) :: rest, _ =>
      have : 0 < w := hpos w (by simp)
      simp only [sumWeights, List.map_cons, List.sum_cons]
      omega
  have hv : (seed % cyc) % sumWeights ps < sumWeights ps :=
    Nat.mod_lt _ htot
  simpa [evalC] using evalWalk_spec seed σ ps ((seed % cyc) % sumWeights ps)
    hpos hv

/-- Witness for C2: `Weighted(2,"a",1,"b")` with cycle 7 at seed 4. -/
theorem c2_weighted_selection_witness :
    ∃ (d : Nat) (hd : d < ([(2, CNode.str "a"), (1, CNode.str "b")]).length),
      ((([(2, CNode.str "a"), (1, CNode.str "b")]).map Prod.fst).take d).sum ≤
        (4 % 7) % sumWeights [(2, CNode.str "a"), (1, CNode.str "b")] ∧
      (4 % 7) % sumWeights [(2, CNode.str "a"), (1, CNode.str "b")] <
        ((([(2, CNode.str "a"), (1, CNode.str "b")]).map Prod.fst).take
          (d + 1)).sum ∧
      d = selIdx (([(2, CNode.str "a"), (1, CNode.str "b")]).map Prod.fst)
        ((4 % 7) % sumWeights [(2, CNode.str "a"), (1, CNode.str "b")]) ∧
      evalC (CNode.weighted 7 [(2, CNode.str "a"), (1, CNode.str "b")]) 4
        initStore =
        evalC (([(2, CNode.str "a"), (1, CNode.str "b")]).get ⟨d, hd⟩).2 4
          initStore :=
  c2_weighted_selection 7 [(2, CNode.str "a"), (1, CNode.str "b")] 4 initStore
    (by decide) (List.cons_ne_nil _ _)

/-- `swapAt` does not change the length. -/
theorem swapAt_length (l : List Nat) (i j : Nat) :
    (swapAt l i j).length = l.length := by
  simp [swapAt]

/-- Moving the element at an in-range position to the front while
writing `a` there is a permutation of putting `a` in front. -/
theorem cons_set_perm : ∀ (t : List Nat) (m a : Nat), m < t.length →
    List.Perm (t.getD m 0 :: t.set m a) (a :: t) := by
  intro t
  induction t with
  | nil => intro m a hm; simp at hm
  | cons b t2 ih =>
    intro m a hm
    match m with
    | 0 =>
      simpa using List.Perm.swap _ _ _
    | Nat.succ k =>
      have hk : k < t2.length := by simpa using hm
      have h1 := (ih k a hk).cons b
      simp only [List.getD_cons_succ, List.set_cons_succ]
      exact ((List.Perm.swap _ _ _).trans h1).trans (List.Perm.swap _ _ _)

/-- An in-range swap is a permutation. -/
theorem swapAt_perm : ∀ (l : List Nat) (i j : Nat), i < l.length →
    j < l.length → List.Perm (swapAt l i j) l := by
  intro l
  induction l with
  | nil => intro i j hi _; simp at hi
  | cons a t ih =>
    intro i j hi hj
    match i, j with
    | 0, 0 =>
      simp [swapAt]
    | 0, Nat.succ m =>
      have hm : m < t.length := by simpa using hj
      simpa [swapAt] using cons_set_perm t m a hm
    | Nat.succ k, 0 =>
      have hk : k < t.length := by simpa using hi
      simpa [swapAt] using cons_set_perm t k a hk
    | Nat.succ k, Nat.succ m =>
      have hk : k < t.length := by simpa using hi
      have hm : m < t.length := by simpa using hj
      simpa [swapAt] using (ih k m hk hm).cons a

/-- The refilled Shuffle order is a permutation of the child indices
`0..n-1`. -/
theorem shuffleFill_perm (n cyc seed : Nat) :
    List.Perm (shuffleFill n cyc seed) (List.range n) := by
  have key : ∀ (ixs acc : List Nat), (∀ ix ∈ ixs, ix < n) →
      List.Perm acc (List.range n) →
      List.Perm
        (ixs.foldl
          (fun ord ix => swapAt ord ix ((seed % (cyc + 2 * ix)) % n)) acc)
        (List.range n) := by
    intro ixs
    induction ixs with
    | nil => intro acc _ h; simpa using h
    | cons ix rest ih =>
      intro acc hmem h
      have hixn : ix < n := hmem ix (by simp)
      have hlen : acc.length = n := by simpa using h.length_eq
      have hjx : (seed % (cyc + 2 * ix)) % n < n := Nat.mod_lt _ (by omega)
      have hperm : List.Perm (swapAt acc ix ((seed % (cyc + 2 * ix)) % n))
          acc := swapAt_perm acc ix _ (by omega) (by omega)
      simp only [List.foldl_cons]
      exact ih _ (fun x hx => hmem x (by simp [hx])) (hperm.trans h)
  exact key (List.range n) (List.range n)
    (fun ix h => List.mem_range.mp h) (List.Perm.refl _)

/-- The refilled order has exactly `n` entries. -/
theorem shuffleFill_length (n cyc seed : Nat) :
    (shuffleFill n cyc seed).length = n := by
  simpa using (shuffleFill_perm n cyc seed).length_eq

/-- The reversed refilled order (the emission order) has no
duplicates. -/
theorem shuffleFill_rev_nodup (n cyc seed : Nat) :
    (shuffleFill n cyc seed).reverse.Nodup :=
  ((List.reverse_perm (shuffleFill n cyc seed)).trans
    (shuffleFill_perm n cyc seed)).nodup_iff.mpr (List.nodup_range n)

/-- A call with a changed seed behaves exactly like a call on the
reset state (empty order, seed recorded). -/
theorem shuffleStep_reset (n cyc seed : Nat) (s : ShuffleState)
    (h : (seed : Int) ≠ s.seedstore) :
    shuffleStep n cyc seed s = shuffleStep n cyc seed ⟨[], (seed : Int)⟩ := by
  simp [shuffleStep, h]

/-- A run with a changed seed behaves exactly like a run from the
reset state. -/
theorem shuffleRun_reset (n cyc seed k : Nat) (s : ShuffleState)
    (h : (seed : Int) ≠ s.seedstore) :
    shuffleRun n cyc seed k s =
      shuffleRun n cyc seed k ⟨[], (seed : Int)⟩ := by
  cases k with
  | zero => rfl
  | succ k => simp only [shuffleRun, shuffleStep_reset n cyc seed s h]

/-- Stepping from an empty order with a matching seed first refills
the order. -/
theorem shuffleStep_refill (n cyc seed : Nat) (hn : 0 < n) :
    shuffleStep n cyc seed ⟨[], (seed : Int)⟩ =
      shuffleStep n cyc seed ⟨shuffleFill n cyc seed, (seed : Int)⟩ := by
  have hne : shuffleFill n cyc seed ≠ [] := by
    intro h
    have := shuffleFill_length n cyc seed
    rw [h] at this
    simp at this
    omega
  simp [shuffleStep, List.isEmpty_iff, hne]

/-- Draining a pending order with a matching seed emits its entries
back to front, then continues from the empty order. -/
theorem shuffleRun_drain (n cyc seed : Nat) :
    ∀ (k : Nat) (ord : List Nat),
    shuffleRun n cyc seed k ⟨ord, (seed : Int)⟩ =
      ord.reverse.take k ++
        (if k ≤ ord.length then []
         else shuffleRun n cyc seed (k - ord.length) ⟨[], (seed : Int)⟩) := by
  intro k
  induction k with
  | zero => intro ord; simp [shuffleRun]
  | succ k ih =>
    intro ord
    rcases eq_or_ne ord [] with rfl | hne
    · simp
    · obtain ⟨ys, y, rfl⟩ : ∃ ys y, ord = ys ++ [y] :=
        ⟨ord.dropLast, ord.getLast hne,
          (List.dropLast_append_getLast hne).symm⟩
      have hys : ys ++ [y] ≠ [] := by simp
      have hstep : shuffleStep n cyc seed ⟨ys ++ [y], (seed : Int)⟩ =
          (some y, ⟨ys, (seed : Int)⟩) := by
        simp [shuffleStep, List.isEmpty_iff, List.getLast?_concat,
          List.dropLast_concat]
      have hrun : shuffleRun n cyc seed (k + 1) ⟨ys ++ [y], (seed : Int)⟩ =
          y :: shuffleRun n cyc seed k ⟨ys, (seed : Int)⟩ := by
        simp only [shuffleRun, hstep]
      rw [hrun, ih ys]
      simp only [List.reverse_append, List.reverse_cons, List.reverse_nil,
        List.nil_append, List.singleton_append, List.take_succ_cons,
        List.length_append, List.length_cons, List.length_nil,
        List.cons_append]
      have hsub : k + 1 - (ys.length + (0 + 1)) = k - ys.length := by
        omega
      rw [hsub]
      by_cases hc : k ≤ ys.length
      · rw [if_pos hc, if_pos (by omega)]
      · rw [if_neg hc, if_neg (by omega)]

/-- A prefix of a list, written via positional lookup. -/
theorem take_eq_range_map : ∀ (k : Nat) (l : List Nat), k ≤ l.length →
    l.take k = (List.range k).map (fun m => l.getD m 0) := by
  intro k
  induction k with
  | zero => simp
  | succ k ih =>
    intro l hk
    have hkl : k < l.length := by omega
    rw [List.take_succ, ih l (by omega)]
    have h1 : l[k]? = some (l.getD k 0) := by
      rw [List.getElem?_eq_getElem hkl, List.getD_eq_getElem _ 0 hkl]
    have h2 : List.range (k + 1) = List.range k ++ [k] := by
      simpa using List.range_succ k
    rw [h1, h2, List.map_append]
    simp

/-- The reversed refilled order, written positionally over one block
of `n` emissions. -/
theorem shuffleFill_rev_eq_map (n cyc seed : Nat) :
    (shuffleFill n cyc seed).reverse =
      (List.range n).map
        (fun m => (shuffleFill n cyc seed).reverse.getD (m % n) 0) := by
  have hFrevlen : (shuffleFill n cyc seed).reverse.length = n := by
    simpa using shuffleFill_length n cyc seed
  have h1 : (List.range n).map
      (fun m => (shuffleFill n cyc seed).reverse.getD (m % n) 0) =
      (List.range n).map
        (fun m => (shuffleFill n cyc seed).reverse.getD m 0) := by
    apply List.map_congr_left
    intro m hm
    rw [Nat.mod_eq_of_lt (List.mem_range.mp hm)]
  rw [h1, ← take_eq_range_map n _ hFrevlen.ge]
  exact (List.take_of_length_le hFrevlen.le).symm

/-- The closed form of a Shuffle run from the reset state: the `m`-th
emission is entry `m mod n` of the reversed refilled order — the
emission stream replays the same shuffled block over and over, because
the refill depends only on the seed and cycle. -/
theorem shuffleRun_closed (n cyc seed : Nat) (hn : 0 < n) :
    ∀ k, shuffleRun n cyc seed k ⟨[], (seed : Int)⟩ =
      (List.range k).map
        (fun m => (shuffleFill n cyc seed).reverse.getD (m % n) 0) := by
  intro k
  induction k using Nat.strong_induction_on with
  | _ k ih =>
    match k with
    | 0 => simp [shuffleRun]
    | Nat.succ k0 =>
      have hrun : shuffleRun n cyc seed (k0 + 1) ⟨[], (seed : Int)⟩ =
          shuffleRun n cyc seed (k0 + 1)
            ⟨shuffleFill n cyc seed, (seed : Int)⟩ := by
        simp only [shuffleRun, shuffleStep_refill n cyc seed hn]
      rw [hrun, shuffleRun_drain]
      have hFlen : (shuffleFill n cyc seed).length = n :=
        shuffleFill_length n cyc seed
      have hFrevlen : (shuffleFill n cyc seed).reverse.length = n := by
        simpa using hFlen
      by_cases hk : k0 + 1 ≤ n
      · rw [if_pos (by omega), List.append_nil,
          take_eq_range_map (k0 + 1) _ (by omega)]
        apply List.map_congr_left
        intro m hm
        have : m < k0 + 1 := List.mem_range.mp hm
        rw [Nat.mod_eq_of_lt (by omega)]
      · rw [if_neg (by omega), hFlen,
          List.take_of_length_le (by omega),
          ih (k0 + 1 - n) (by omega)]
        simp only [Nat.succ_eq_add_one]
        conv_rhs =>
          rw [show k0 + 1 = n + (k0 + 1 - n) from by omega, List.range_add]
        rw [List.map_append, List.map_map]
        congr 1
        · exact shuffleFill_rev_eq_map n cyc seed
        · apply List.map_congr_left
          intro m _
          simp [Function.comp, Nat.add_mod_left]

/-- Positional lookup with a default is injective on the indices of a
duplicate-free list. -/
theorem nodup_getD_inj (l : List Nat) (hnd : l.Nodup) (a b : Nat)
    (ha : a < l.length) (hb : b < l.length)
    (h : l.getD a 0 = l.getD b 0) : a = b := by
  rw [List.getD_eq_getElem _ 0 ha, List.getD_eq_getElem _ 0 hb] at h
  exact (hnd.getElem_inj_iff).mp h

/-- Claim C3: for a Shuffle node with `n` children (`0 < n`) and a
fixed seed, in any maximal run of consecutive invocations sharing that
seed (the run starts on a state whose recorded seed differs, as with a
freshly constructed node or after a call with another seed), a child
index can repeat at position `j` only when all `n` child indices have
already been emitted among the first `j` emissions — in particular only
from position `n` onwards. -/
theorem c3_shuffle_no_repeat (n cyc seed k : Nat) (s0 : ShuffleState)
    (hn : 0 < n) (hreset : (seed : Int) ≠ s0.seedstore)
    (i j : Nat) (hij : i < j) (hjk : j < k)
    (heq : (shuffleRun n cyc seed k s0).getD i 0 =
      (shuffleRun n cyc seed k s0).getD j 0) :
    n ≤ j ∧ ∀ c, c < n → c ∈ (shuffleRun n cyc seed k s0).take j := by
  rw [shuffleRun_reset n cyc seed k s0 hreset] at heq ⊢
  rw [shuffleRun_closed n cyc seed hn k] at heq ⊢
  have hFrevlen : (shuffleFill n cyc seed).reverse.length = n := by
    simpa using shuffleFill_length n cyc seed
  have hgetD : ∀ m, m < k →
      ((List.range k).map
        (fun m => (shuffleFill n cyc seed).reverse.getD (m % n) 0)).getD m 0 =
      (shuffleFill n cyc seed).reverse.getD (m % n) 0 := by
    intro m hm
    rw [List.getD_eq_getElem _ 0 (by simpa using hm), List.getElem_map,
      List.getElem_range]
  rw [hgetD i (by omega), hgetD j (by omega)] at heq
  have himod : i % n < n := Nat.mod_lt _ hn
  have hjmod : j % n < n := Nat.mod_lt _ hn
  have heq2 : i % n = j % n :=
    nodup_getD_inj _ (shuffleFill_rev_nodup n cyc seed) (i % n) (j % n)
      (by omega) (by omega) heq
  have hdvd : n ∣ j - i := (Nat.modEq_iff_dvd' (by omega)).mp heq2
  have hnj : n ≤ j := by
    have := Nat.le_of_dvd (by omega) hdvd
    omega
  refine ⟨hnj, fun c hc => ?_⟩
  have hcmem : c ∈ (shuffleFill n cyc seed).reverse := by
    have hperm := (List.reverse_perm (shuffleFill n cyc seed)).trans
      (shuffleFill_perm n cyc seed)
    exact hperm.mem_iff.mpr (List.mem_range.mpr hc)
  have htake : (shuffleFill n cyc seed).reverse =
      ((List.range k).map
        (fun m => (shuffleFill n cyc seed).reverse.getD (m % n) 0)).take n := by
    have h1 : (List.range k).take n = List.range n := by
      rw [List.take_range, Nat.min_eq_left (by omega)]
    rw [← List.map_take, h1]
    exact shuffleFill_rev_eq_map n cyc seed
  rcases Nat.exists_eq_add_of_le hnj with ⟨d, rfl⟩
  rw [htake] at hcmem
  have hmin : ((List.range k).map
      (fun m => (shuffleFill n cyc seed).reverse.getD (m % n) 0)).take n =
      (((List.range k).map
        (fun m => (shuffleFill n cyc seed).reverse.getD (m % n) 0)).take
          (n + d)).take n := by
    rw [List.take_take, Nat.min_eq_left (by omega)]
  rw [hmin] at hcmem
  exact List.take_subset _ _ hcmem

/-- Witness for C3: `Shuffle` with three children, cycle 5009, seed 1,
seven consecutive invocations from the fresh state; emission 3 repeats
emission 0. -/
theorem c3_shuffle_no_repeat_witness :
    3 ≤ 3 ∧ ∀ c, c < 3 →
      c ∈ (shuffleRun 3 5009 1 7 initShuffleState).take 3 :=
  c3_shuffle_no_repeat 3 5009 1 7 initShuffleState (by decide) (by decide)
    0 3 (by decide) (by decide) (by decide)

/-- Cycle allocation never disturbs an existing label binding: the
label map only ever gains entries for labels it does not yet hold. -/
theorem allocCycle_mapLe {label : Option String} {st : BuildState}
    {c : Nat} {st1 : BuildState} (h : allocCycle label st = .ok (c, st1)) :
    ∀ l q, List.lookup l st.fixedmap = some q →
      List.lookup l st1.fixedmap = some q := by
  intro l q hl
  match label with
  | none =>
    simp only [allocCycle, popPrime] at h
    match hg : st.pool.getLast? with
    | none => rw [hg] at h; cases h
    | some p =>
      rw [hg] at h
      simp only [Except.ok.injEq, Prod.mk.injEq] at h
      rw [← h.2]
      exact hl
  | some lab =>
    simp only [allocCycle] at h
    by_cases hlab : lab = ""
    · rw [if_pos hlab] at h
      simp only [popPrime] at h
      match hg : st.pool.getLast? with
      | none => rw [hg] at h; cases h
      | some p =>
        rw [hg] at h
        simp only [Except.ok.injEq, Prod.mk.injEq] at h
        rw [← h.2]
        exact hl
    · rw [if_neg hlab] at h
      match hf : List.lookup lab st.fixedmap with
      | some p =>
        rw [hf] at h
        simp only [Except.ok.injEq, Prod.mk.injEq] at h
        rw [← h.2]
        exact hl
      | none =>
        rw [hf] at h
        simp only [popPrime] at h
        match hg : st.pool.getLast? with
        | none => rw [hg] at h; cases h
        | some p =>
          rw [hg] at h
          simp only [Except.ok.injEq, Prod.mk.injEq] at h
          rw [← h.2]
          simp only [List.lookup]
          have hne : (l == lab) = false := by
            by_cases hll : l = lab
            · rw [hll] at hl
              rw [hl] at hf
              cases hf
            · simpa using hll
          rw [hne]
          exact hl

mutual

/-- Compiling any node preserves every existing label binding. -/
theorem build_mapLe :
    ∀ (t : Node) (path : List Nat) (label : Option String) (st : BuildState)
      (cn : CNode) (st1 : BuildState),
      build t path label st = .ok (cn, st1) →
      ∀ l q, List.lookup l st.fixedmap = some q →
        List.lookup l st1.fixedmap = some q
  | Node.null, _, _, st, cn, st1, h => by
    simp only [build, Except.ok.injEq, Prod.mk.injEq] at h
    rw [← h.2]
    exact fun l q hl => hl
  | Node.str s, _, _, st, cn, st1, h => by
    simp only [build] at h
    by_cases hs : s = "" <;>
      simp only [hs, if_true, if_false, if_pos, if_neg, Except.ok.injEq,
        Prod.mk.injEq, reduceIte] at h <;>
      rw [← h.2] <;> exact fun l q hl => hl
  | Node.period, _, _, st, cn, st1, h => by
    simp only [build, Except.ok.injEq, Prod.mk.injEq] at h
    rw [← h.2]
    exact fun l q hl => hl
  | Node.comma, _, _, st, cn, st1, h => by
    simp only [build, Except.ok.injEq, Prod.mk.injEq] at h
    rw [← h.2]
    exact fun l q hl => hl
  | Node.semicolon, _, _, st, cn, st1, h => by
    simp only [build, Except.ok.injEq, Prod.mk.injEq] at h
    rw [← h.2]
    exact fun l q hl => hl
  | Node.dash, _, _, st, cn, st1, h => by
    simp only [build, Except.ok.injEq, Prod.mk.injEq] at h
    rw [← h.2]
    exact fun l q hl => hl
  | Node.aan, _, _, st, cn, st1, h => by
    simp only [build, Except.ok.injEq, Prod.mk.injEq] at h
    rw [← h.2]
    exact fun l q hl => hl
  | Node.concat, _, _, st, cn, st1, h => by
    simp only [build, Except.ok.injEq, Prod.mk.injEq] at h
    rw [← h.2]
    exact fun l q hl => hl
  | Node.sequence cs, path, label, st, cn, st1, h => by
    simp only [build] at h
    match ha : allocCycle label st with
    | .error e =>
      rw [ha] at h
      dsimp only at h
      exact Except.noConfusion h
    | .ok (cyc, stA) =>
      rw [ha] at h
      dsimp only at h
      match hb : buildList cs path 0 stA with
      | .error e =>
        rw [hb] at h
        dsimp only at h
        exact Except.noConfusion h
      | .ok (ccs, stB) =>
        rw [hb] at h
        dsimp only at h
        simp only [Except.ok.injEq, Prod.mk.injEq] at h
        rw [← h.2]
        exact fun l q hl =>
          buildList_mapLe cs path 0 stA ccs stB hb l q
            (allocCycle_mapLe ha l q hl)
  | Node.choice cs, path, label, st, cn, st1, h => by
    simp only [build] at h
    match ha : allocCycle label st with
    | .error e =>
      rw [ha] at h
      dsimp only at h
      exact Except.noConfusion h
    | .ok (cyc, stA) =>
      rw [ha] at h
      dsimp only at h
      match hb : buildList cs path 0 stA with
      | .error e =>
        rw [hb] at h
        dsimp only at h
        exact Except.noConfusion h
      | .ok (ccs, stB) =>
        rw [hb] at h
        dsimp only at h
        simp only [Except.ok.injEq, Prod.mk.injEq] at h
        rw [← h.2]
        exact fun l q hl =>
          buildList_mapLe cs path 0 stA ccs stB hb l q
            (allocCycle_mapLe ha l q hl)
  | Node.shuffle cs, path, label, st, cn, st1, h => by
    simp only [build] at h
    match ha : allocCycle label st with
    | .error e =>
      rw [ha] at h
      dsimp only at h
      exact Except.noConfusion h
    | .ok (cyc, stA) =>
      rw [ha] at h
      dsimp only at h
      match hb : buildList cs path 0 stA with
      | .error e =>
        rw [hb] at h
        dsimp only at h
        exact Except.noConfusion h
      | .ok (ccs, stB) =>
        rw [hb] at h
        dsimp only at h
        simp only [Except.ok.injEq, Prod.mk.injEq] at h
        rw [← h.2]
        exact fun l q hl =>
          buildList_mapLe cs path 0 stA ccs stB hb l q
            (allocCycle_mapLe ha l q hl)
  | Node.weighted ps, path, label, st, cn, st1, h => by
    simp only [build] at h
    match ha : allocCycle label st with
    | .error e =>
      rw [ha] at h
      dsimp only at h
      exact Except.noConfusion h
    | .ok (cyc, stA) =>
      rw [ha] at h
      dsimp only at h
      match hb : buildPairs ps path 0 stA with
      | .error e =>
        rw [hb] at h
        dsimp only at h
        exact Except.noConfusion h
      | .ok (cps, stB) =>
        rw [hb] at h
        dsimp only at h
        simp only [Except.ok.injEq, Prod.mk.injEq] at h
        rw [← h.2]
        exact fun l q hl =>
          buildPairs_mapLe ps path 0 stA cps stB hb l q
            (allocCycle_mapLe ha l q hl)
  | Node.fixed lab child, path, label, st, cn, st1, h => by
    simp only [build] at h
    match ha : allocCycle label st with
    | .error e =>
      rw [ha] at h
      dsimp only at h
      exact Except.noConfusion h
    | .ok (cyc, stA) =>
      rw [ha] at h
      dsimp only at h
      match hb : build child (path ++ [0]) (some lab) stA with
      | .error e =>
        rw [hb] at h
        dsimp only at h
        exact Except.noConfusion h
      | .ok (cc, stB) =>
        rw [hb] at h
        dsimp only at h
        simp only [Except.ok.injEq, Prod.mk.injEq] at h
        rw [← h.2]
        exact fun l q hl =>
          build_mapLe child (path ++ [0]) (some lab) stA cc stB hb l q
            (allocCycle_mapLe ha l q hl)

/-- Compiling a child list preserves every existing label binding. -/
theorem buildList_mapLe :
    ∀ (cs : List Node) (path : List Nat) (ix : Nat) (st : BuildState)
      (ccs : List CNode) (st1 : BuildState),
      buildList cs path ix st = .ok (ccs, st1) →
      ∀ l q, List.lookup l st.fixedmap = some q →
        List.lookup l st1.fixedmap = some q
  | [], _, _, st, ccs, st1, h => by
    simp only [buildList, Except.ok.injEq, Prod.mk.injEq] at h
    rw [← h.2]
    exact fun l q hl => hl
  | c :: rest, path, ix, st, ccs, st1, h => by
    simp only [buildList] at h
    match ha : build c (path ++ [ix]) none st with
    | .error e =>
      rw [ha] at h
      dsimp only at h
      exact Except.noConfusion h
    | .ok (cc, stA) =>
      rw [ha] at h
      dsimp only at h
      match hb : buildList rest path (ix + 1) stA with
      | .error e =>
        rw [hb] at h
        dsimp only at h
        exact Except.noConfusion h
      | .ok (crest, stB) =>
        rw [hb] at h
        dsimp only at h
        simp only [Except.ok.injEq, Prod.mk.injEq] at h
        rw [← h.2]
        exact fun l q hl =>
          buildList_mapLe rest path (ix + 1) stA crest stB hb l q
            (build_mapLe c (path ++ [ix]) none st cc stA ha l q hl)

/-- Compiling Weighted pairs preserves every existing label binding. -/
theorem buildPairs_mapLe :
    ∀ (ps : List (Nat × Node)) (path : List Nat) (ix : Nat) (st : BuildState)
      (cps : List (Nat × CNode)) (st1 : BuildState),
      buildPairs ps path ix st = .ok (cps, st1) →
      ∀ l q, List.lookup l st.fixedmap = some q →
        List.lookup l st1.fixedmap = some q
  | [], _, _, st, cps, st1, h => by
    simp only [buildPairs, Except.ok.injEq, Prod.mk.injEq] at h
    rw [← h.2]
    exact fun l q hl => hl
  | (w, c) :: rest, path, ix, st, cps, st1, h => by
    simp only [buildPairs] at h
    match ha : build c (path ++ [ix]) none st with
    | .error e =>
      rw [ha] at h
      dsimp only at h
      exact Except.noConfusion h
    | .ok (cc, stA) =>
      rw [ha] at h
      dsimp only at h
      match hb : buildPairs rest path (ix + 1) stA with
      | .error e =>
        rw [hb] at h
        dsimp only at h
        exact Except.noConfusion h
      | .ok (crest, stB) =>
        rw [hb] at h
        dsimp only at h
        simp only [Except.ok.injEq, Prod.mk.injEq] at h
        rw [← h.2]
        exact fun l q hl =>
          buildPairs_mapLe rest path (ix + 1) stA crest stB hb l q
            (build_mapLe c (path ++ [ix]) none st cc stA ha l q hl)

end

/-- Compiling Weighted pairs preserves the weight vector. -/
theorem buildPairs_fst :
    ∀ (ps : List (Nat × Node)) (path : List Nat) (ix : Nat) (st : BuildState)
      (cps : List (Nat × CNode)) (st1 : BuildState),
      buildPairs ps path ix st = .ok (cps, st1) →
      cps.map Prod.fst = ps.map Prod.fst := by
  intro ps
  induction ps with
  | nil =>
    intro path ix st cps st1 h
    simp only [buildPairs, Except.ok.injEq, Prod.mk.injEq] at h
    rw [← h.1]
    rfl
  | cons hd rest ih =>
    obtain ⟨w, c⟩ := hd
    intro path ix st cps st1 h
    simp only [buildPairs] at h
    match ha : build c (path ++ [ix]) none st with
    | .error e =>
      rw [ha] at h
      dsimp only at h
      exact Except.noConfusion h
    | .ok (cc, stA) =>
      rw [ha] at h
      dsimp only at h
      match hb : buildPairs rest path (ix + 1) stA with
      | .error e =>
        rw [hb] at h
        dsimp only at h
        exact Except.noConfusion h
      | .ok (crest, stB) =>
        rw [hb] at h
        dsimp only at h
        simp only [Except.ok.injEq, Prod.mk.injEq] at h
        rw [← h.1]
        simp only [List.map_cons]
        rw [ih path (ix + 1) stA crest stB hb]

/-- Compiling a child list preserves its length. -/
theorem buildList_length :
    ∀ (cs : List Node) (path : List Nat) (ix : Nat) (st : BuildState)
      (ccs : List CNode) (st1 : BuildState),
      buildList cs path ix st = .ok (ccs, st1) →
      ccs.length = cs.length := by
  intro cs
  induction cs with
  | nil =>
    intro path ix st ccs st1 h
    simp only [buildList, Except.ok.injEq, Prod.mk.injEq] at h
    rw [← h.1]
    rfl
  | cons c rest ih =>
    intro path ix st ccs st1 h
    simp only [buildList] at h
    match ha : build c (path ++ [ix]) none st with
    | .error e =>
      rw [ha] at h
      dsimp only at h
      exact Except.noConfusion h
    | .ok (cc, stA) =>
      rw [ha] at h
      dsimp only at h
      match hb : buildList rest path (ix + 1) stA with
      | .error e =>
        rw [hb] at h
        dsimp only at h
        exact Except.noConfusion h
      | .ok (crest, stB) =>
        rw [hb] at h
        dsimp only at h
        simp only [Except.ok.injEq, Prod.mk.injEq] at h
        rw [← h.1]
        simp only [List.length_cons]
        rw [ih path (ix + 1) stA crest stB hb]

/-- Allocating a cycle for a non-empty label leaves that label bound
to the returned cycle, whether it was found in the map or freshly
popped and recorded. -/
theorem allocCycle_labeled {l : String} {st : BuildState} {c : Nat}
    {st1 : BuildState} (h : allocCycle (some l) st = .ok (c, st1))
    (hl : l ≠ "") : List.lookup l st1.fixedmap = some c := by
  simp only [allocCycle, if_neg hl] at h
  match hf : List.lookup l st.fixedmap with
  | some p =>
    rw [hf] at h
    simp only [Except.ok.injEq, Prod.mk.injEq] at h
    rw [← h.2, ← h.1]
    exact hf
  | none =>
    rw [hf] at h
    simp only [popPrime] at h
    match hg : st.pool.getLast? with
    | none => rw [hg] at h; exact Except.noConfusion h
    | some p =>
      rw [hg] at h
      simp only [Except.ok.injEq, Prod.mk.injEq] at h
      rw [← h.2, ← h.1]
      simp [List.lookup]

/-- Building a Weighted node under a non-empty label binds it to the
cycle recorded for that label, which remains bound after its children
compile. -/
theorem build_weighted_labeled {ps : List (Nat × Node)} {path : List Nat}
    {l : String} {st : BuildState} {cn : CNode} {st1 : BuildState}
    (h : build (Node.weighted ps) path (some l) st = .ok (cn, st1))
    (hl : l ≠ "") :
    ∃ c cps, cn = CNode.weighted c cps ∧
      cps.map Prod.fst = ps.map Prod.fst ∧
      List.lookup l st1.fixedmap = some c := by
  simp only [build] at h
  match ha : allocCycle (some l) st with
  | .error e =>
    rw [ha] at h
    dsimp only at h
    exact Except.noConfusion h
  | .ok (cyc, stA) =>
    rw [ha] at h
    dsimp only at h
    match hb : buildPairs ps path 0 stA with
    | .error e =>
      rw [hb] at h
      dsimp only at h
      exact Except.noConfusion h
    | .ok (cps, stB) =>
      rw [hb] at h
      dsimp only at h
      simp only [Except.ok.injEq, Prod.mk.injEq] at h
      refine ⟨cyc, cps, h.1.symm,
        buildPairs_fst ps path 0 stA cps stB hb, ?_⟩
      rw [← h.2]
      exact buildPairs_mapLe ps path 0 stA cps stB hb l cyc
        (allocCycle_labeled ha hl)

/-- Building a Choice node under a non-empty label binds it to the
cycle recorded for that label, which remains bound after its children
compile. -/
theorem build_choice_labeled {cs : List Node} {path : List Nat}
    {l : String} {st : BuildState} {cn : CNode} {st1 : BuildState}
    (h : build (Node.choice cs) path (some l) st = .ok (cn, st1))
    (hl : l ≠ "") :
    ∃ c ccs, cn = CNode.choice c ccs ∧ ccs.length = cs.length ∧
      List.lookup l st1.fixedmap = some c := by
  simp only [build] at h
  match ha : allocCycle (some l) st with
  | .error e =>
    rw [ha] at h
    dsimp only at h
    exact Except.noConfusion h
  | .ok (cyc, stA) =>
    rw [ha] at h
    dsimp only at h
    match hb : buildList cs path 0 stA with
    | .error e =>
      rw [hb] at h
      dsimp only at h
      exact Except.noConfusion h
    | .ok (ccs, stB) =>
      rw [hb] at h
      dsimp only at h
      simp only [Except.ok.injEq, Prod.mk.injEq] at h
      refine ⟨cyc, ccs, h.1.symm,
        buildList_length cs path 0 stA ccs stB hb, ?_⟩
      rw [← h.2]
      exact buildList_mapLe cs path 0 stA ccs stB hb l cyc
        (allocCycle_labeled ha hl)

mutual

/-- Wherever a tree contains `Fixed(l, w)` with a non-empty label `l`
wrapping a Weighted or Choice node, the compiled tree carries at the
same path a transparent wrapper around the compiled `w` bound to a
cycle `c`, and the final label map binds `l` to exactly that `c`
(because the binding is created at the first allocation for `l` and
never changed afterwards). -/
theorem build_fixed_cycle :
    ∀ (t : Node) (path : List Nat) (label : Option String) (st : BuildState)
      (cn : CNode) (st1 : BuildState),
      build t path label st = .ok (cn, st1) →
      ∀ (p : List Nat) (l : String) (ch : Node),
        subtreeAt t p = some (Node.fixed l ch) → l ≠ "" →
        ((∃ ps, ch = Node.weighted ps) ∨ (∃ cs, ch = Node.choice cs)) →
        ∃ c cc, csubtreeAt cn p = some (CNode.fixedC cc) ∧
          List.lookup l st1.fixedmap = some c ∧
          (∀ ps, ch = Node.weighted ps →
            ∃ cps, cc = CNode.weighted c cps ∧
              cps.map Prod.fst = ps.map Prod.fst) ∧
          (∀ cs, ch = Node.choice cs →
            ∃ ccs, cc = CNode.choice c ccs ∧ ccs.length = cs.length)
  | Node.null, _, _, _, _, _, _ => by
    intro p l ch hsub hl hok
    cases p <;> simp [subtreeAt] at hsub
  | Node.str s, _, _, _, _, _, _ => by
    intro p l ch hsub hl hok
    cases p <;> simp [subtreeAt] at hsub
  | Node.period, _, _, _, _, _, _ => by
    intro p l ch hsub hl hok
    cases p <;> simp [subtreeAt] at hsub
  | Node.comma, _, _, _, _, _, _ => by
    intro p l ch hsub hl hok
    cases p <;> simp [subtreeAt] at hsub
  | Node.semicolon, _, _, _, _, _, _ => by
    intro p l ch hsub hl hok
    cases p <;> simp [subtreeAt] at hsub
  | Node.dash, _, _, _, _, _, _ => by
    intro p l ch hsub hl hok
    cases p <;> simp [subtreeAt] at hsub
  | Node.aan, _, _, _, _, _, _ => by
    intro p l ch hsub hl hok
    cases p <;> simp [subtreeAt] at hsub
  | Node.concat, _, _, _, _, _, _ => by
    intro p l ch hsub hl hok
    cases p <;> simp [subtreeAt] at hsub
  | Node.sequence cs, path, label, st, cn, st1, h => by
    intro p l ch hsub hl hok
    match p with
    | [] => simp [subtreeAt] at hsub
    | i :: p2 =>
      simp only [subtreeAt] at hsub
      match hg : cs.get? i with
      | none =>
        rw [hg] at hsub
        exact Option.noConfusion hsub
      | some ch0 =>
        rw [hg] at hsub
        dsimp only at hsub
        simp only [build] at h
        match ha : allocCycle label st with
        | .error e =>
          rw [ha] at h
          dsimp only at h
          exact Except.noConfusion h
        | .ok (cyc, stA) =>
          rw [ha] at h
          dsimp only at h
          match hb : buildList cs path 0 stA with
          | .error e =>
            rw [hb] at h
            dsimp only at h
            exact Except.noConfusion h
          | .ok (ccs, stB) =>
            rw [hb] at h
            dsimp only at h
            simp only [Except.ok.injEq, Prod.mk.injEq] at h
            obtain ⟨hcn, hst⟩ := h
            subst hst
            obtain ⟨c, cc0, cc, hget, hcsub, hlook, hprops⟩ :=
              buildList_fixed_cycle cs path 0 stA ccs stB hb i ch0 p2 l ch
                hg hsub hl hok
            refine ⟨c, cc, ?_, hlook, hprops⟩
            rw [← hcn]
            simp only [csubtreeAt]
            rw [hget]
            exact hcsub
  | Node.choice cs, path, label, st, cn, st1, h => by
    intro p l ch hsub hl hok
    match p with
    | [] => simp [subtreeAt] at hsub
    | i :: p2 =>
      simp only [subtreeAt] at hsub
      match hg : cs.get? i with
      | none =>
        rw [hg] at hsub
        exact Option.noConfusion hsub
      | some ch0 =>
        rw [hg] at hsub
        dsimp only at hsub
        simp only [build] at h
        match ha : allocCycle label st with
        | .error e =>
          rw [ha] at h
          dsimp only at h
          exact Except.noConfusion h
        | .ok (cyc, stA) =>
          rw [ha] at h
          dsimp only at h
          match hb : buildList cs path 0 stA with
          | .error e =>
            rw [hb] at h
            dsimp only at h
            exact Except.noConfusion h
          | .ok (ccs, stB) =>
            rw [hb] at h
            dsimp only at h
            simp only [Except.ok.injEq, Prod.mk.injEq] at h
            obtain ⟨hcn, hst⟩ := h
            subst hst
            obtain ⟨c, cc0, cc, hget, hcsub, hlook, hprops⟩ :=
              buildList_fixed_cycle cs path 0 stA ccs stB hb i ch0 p2 l ch
                hg hsub hl hok
            refine ⟨c, cc, ?_, hlook, hprops⟩
            rw [← hcn]
            simp only [csubtreeAt]
            rw [hget]
            exact hcsub
  | Node.shuffle cs, path, label, st, cn, st1, h => by
    intro p l ch hsub hl hok
    match p with
    | [] => simp [subtreeAt] at hsub
    | i :: p2 =>
      simp only [subtreeAt] at hsub
      match hg : cs.get? i with
      | none =>
        rw [hg] at hsub
        exact Option.noConfusion hsub
      | some ch0 =>
        rw [hg] at hsub
        dsimp only at hsub
        simp only [build] at h
        match ha : allocCycle label st with
        | .error e =>
          rw [ha] at h
          dsimp only at h
          exact Except.noConfusion h
        | .ok (cyc, stA) =>
          rw [ha] at h
          dsimp only at h
          match hb : buildList cs path 0 stA with
          | .error e =>
            rw [hb] at h
            dsimp only at h
            exact Except.noConfusion h
          | .ok (ccs, stB) =>
            rw [hb] at h
            dsimp only at h
            simp only [Except.ok.injEq, Prod.mk.injEq] at h
            obtain ⟨hcn, hst⟩ := h
            subst hst
            obtain ⟨c, cc0, cc, hget, hcsub, hlook, hprops⟩ :=
              buildList_fixed_cycle cs path 0 stA ccs stB hb i ch0 p2 l ch
                hg hsub hl hok
            refine ⟨c, cc, ?_, hlook, hprops⟩
            rw [← hcn]
            simp only [csubtreeAt]
            rw [hget]
            exact hcsub
  | Node.weighted ps, path, label, st, cn, st1, h => by
    intro p l ch hsub hl hok
    match p with
    | [] => simp [subtreeAt] at hsub
    | i :: p2 =>
      simp only [subtreeAt] at hsub
      match hg : ps.get? i with
      | none =>
        rw [hg] at hsub
        exact Option.noConfusion hsub
      | some (w, ch0) =>
        rw [hg] at hsub
        dsimp only at hsub
        simp only [build] at h
        match ha : allocCycle label st with
        | .error e =>
          rw [ha] at h
          dsimp only at h
          exact Except.noConfusion h
        | .ok (cyc, stA) =>
          rw [ha] at h
          dsimp only at h
          match hb : buildPairs ps path 0 stA with
          | .error e =>
            rw [hb] at h
            dsimp only at h
            exact Except.noConfusion h
          | .ok (cps, stB) =>
            rw [hb] at h
            dsimp only at h
            simp only [Except.ok.injEq, Prod.mk.injEq] at h
            obtain ⟨hcn, hst⟩ := h
            subst hst
            obtain ⟨c, cc0, cc, hget, hcsub, hlook, hprops⟩ :=
              buildPairs_fixed_cycle ps path 0 stA cps stB hb i w ch0 p2 l ch
                hg hsub hl hok
            refine ⟨c, cc, ?_, hlook, hprops⟩
            match hgp : cps.get? i with
            | none =>
              rw [hgp] at hget
              exact Option.noConfusion hget
            | some (w2, cc0x) =>
              rw [hgp] at hget
              dsimp only [Option.map] at hget
              simp only [Option.some.injEq] at hget
              rw [← hcn]
              simp only [csubtreeAt]
              rw [hgp]
              dsimp only
              rw [hget]
              exact hcsub
  | Node.fixed lab child, path, label, st, cn, st1, h => by
    intro p l ch hsub hl hok
    simp only [build] at h
    match ha : allocCycle label st with
    | .error e =>
      rw [ha] at h
      dsimp only at h
      exact Except.noConfusion h
    | .ok (cyc, stA) =>
      rw [ha] at h
      dsimp only at h
      match hb : build child (path ++ [0]) (some lab) stA with
      | .error e =>
        rw [hb] at h
        dsimp only at h
        exact Except.noConfusion h
      | .ok (cc0, stB) =>
        rw [hb] at h
        dsimp only at h
        simp only [Except.ok.injEq, Prod.mk.injEq] at h
        obtain ⟨hcn, hst⟩ := h
        subst hst
        match p with
        | [] =>
          simp only [subtreeAt, Option.some.injEq, Node.fixed.injEq] at hsub
          obtain ⟨rfl, rfl⟩ := hsub
          rcases hok with ⟨ps, rfl⟩ | ⟨cs, rfl⟩
          · obtain ⟨c, cps, rfl, hfst, hlook⟩ := build_weighted_labeled hb hl
            refine ⟨c, CNode.weighted c cps, ?_, hlook, ?_, ?_⟩
            · rw [← hcn]
              rfl
            · intro ps2 hps2
              have hps : ps = ps2 := by injection hps2
              subst hps
              exact ⟨cps, rfl, hfst⟩
            · intro cs2 hcs2
              exact absurd hcs2 (by simp)
          · obtain ⟨c, ccs, rfl, hlen, hlook⟩ := build_choice_labeled hb hl
            refine ⟨c, CNode.choice c ccs, ?_, hlook, ?_, ?_⟩
            · rw [← hcn]
              rfl
            · intro ps2 hps2
              exact absurd hps2 (by simp)
            · intro cs2 hcs2
              have hcs : cs = cs2 := by injection hcs2
              subst hcs
              exact ⟨ccs, rfl, hlen⟩
        | 0 :: p2 =>
          simp only [subtreeAt] at hsub
          obtain ⟨c, cc1, hcsub, hlook, hprops⟩ :=
            build_fixed_cycle child (path ++ [0]) (some lab) stA cc0 stB hb
              p2 l ch hsub hl hok
          refine ⟨c, cc1, ?_, hlook, hprops⟩
          rw [← hcn]
          simpa [csubtreeAt] using hcsub
        | Nat.succ k :: p2 => simp [subtreeAt] at hsub

/-- List version of `build_fixed_cycle`: the occurrence sits inside
the `i`-th child. -/
theorem buildList_fixed_cycle :
    ∀ (cs : List Node) (path : List Nat) (ix : Nat) (st : BuildState)
      (ccs : List CNode) (st1 : BuildState),
      buildList cs path ix st = .ok (ccs, st1) →
      ∀ (i : Nat) (ch0 : Node) (p : List Nat) (l : String) (ch : Node),
        cs.get? i = some ch0 →
        subtreeAt ch0 p = some (Node.fixed l ch) → l ≠ "" →
        ((∃ ps, ch = Node.weighted ps) ∨ (∃ cs2, ch = Node.choice cs2)) →
        ∃ c cc0 cc, ccs.get? i = some cc0 ∧
          csubtreeAt cc0 p = some (CNode.fixedC cc) ∧
          List.lookup l st1.fixedmap = some c ∧
          (∀ ps, ch = Node.weighted ps →
            ∃ cps, cc = CNode.weighted c cps ∧
              cps.map Prod.fst = ps.map Prod.fst) ∧
          (∀ cs2, ch = Node.choice cs2 →
            ∃ ccs2, cc = CNode.choice c ccs2 ∧ ccs2.length = cs2.length)
  | [], _, _, _, _, _, _ => by
    intro i ch0 p l ch hg
    simp at hg
  | c :: rest, path, ix, st, ccs, st1, h => by
    intro i ch0 p l ch hg hsub hl hok
    simp only [buildList] at h
    match ha : build c (path ++ [ix]) none st with
    | .error e =>
      rw [ha] at h
      dsimp only at h
      exact Except.noConfusion h
    | .ok (cc, stA) =>
      rw [ha] at h
      dsimp only at h
      match hb : buildList rest path (ix + 1) stA with
      | .error e =>
        rw [hb] at h
        dsimp only at h
        exact Except.noConfusion h
      | .ok (crest, stB) =>
        rw [hb] at h
        dsimp only at h
        simp only [Except.ok.injEq, Prod.mk.injEq] at h
        obtain ⟨hcn, hst⟩ := h
        subst hst
        match i with
        | 0 =>
          simp only [List.get?_cons_zero, Option.some.injEq] at hg
          subst hg
          obtain ⟨cb, ccb, hcsub, hlook, hprops⟩ :=
            build_fixed_cycle c (path ++ [ix]) none st cc stA ha p l ch
              hsub hl hok
          refine ⟨cb, cc, ccb, ?_, hcsub, ?_, hprops⟩
          · rw [← hcn]
            rfl
          · exact buildList_mapLe rest path (ix + 1) stA crest stB hb l cb
              hlook
        | Nat.succ i2 =>
          simp only [List.get?_cons_succ] at hg
          obtain ⟨cb, cc0b, ccb, hget, hcsub, hlook, hprops⟩ :=
            buildList_fixed_cycle rest path (ix + 1) stA crest stB hb i2 ch0
              p l ch hg hsub hl hok
          refine ⟨cb, cc0b, ccb, ?_, hcsub, hlook, hprops⟩
          rw [← hcn]
          simpa using hget

/-- Pairs version of `build_fixed_cycle`: the occurrence sits inside
the node of the `i`-th weight pair. -/
theorem buildPairs_fixed_cycle :
    ∀ (ps : List (Nat × Node)) (path : List Nat) (ix : Nat) (st : BuildState)
      (cps : List (Nat × CNode)) (st1 : BuildState),
      buildPairs ps path ix st = .ok (cps, st1) →
      ∀ (i w : Nat) (ch0 : Node) (p : List Nat) (l : String) (ch : Node),
        ps.get? i = some (w, ch0) →
        subtreeAt ch0 p = some (Node.fixed l ch) → l ≠ "" →
        ((∃ ps2, ch = Node.weighted ps2) ∨ (∃ cs2, ch = Node.choice cs2)) →
        ∃ c cc0 cc, (cps.get? i).map Prod.snd = some cc0 ∧
          csubtreeAt cc0 p = some (CNode.fixedC cc) ∧
          List.lookup l st1.fixedmap = some c ∧
          (∀ ps2, ch = Node.weighted ps2 →
            ∃ cps2, cc = CNode.weighted c cps2 ∧
              cps2.map Prod.fst = ps2.map Prod.fst) ∧
          (∀ cs2, ch = Node.choice cs2 →
            ∃ ccs2, cc = CNode.choice c ccs2 ∧ ccs2.length = cs2.length)
  | [], _, _, _, _, _, _ => by
    intro i w ch0 p l ch hg
    simp at hg
  | (w0, c) :: rest, path, ix, st, cps, st1, h => by
    intro i w ch0 p l ch hg hsub hl hok
    simp only [buildPairs] at h
    match ha : build c (path ++ [ix]) none st with
    | .error e =>
      rw [ha] at h
      dsimp only at h
      exact Except.noConfusion h
    | .ok (cc, stA) =>
      rw [ha] at h
      dsimp only at h
      match hb : buildPairs rest path (ix + 1) stA with
      | .error e =>
        rw [hb] at h
        dsimp only at h
        exact Except.noConfusion h
      | .ok (crest, stB) =>
        rw [hb] at h
        dsimp only at h
        simp only [Except.ok.injEq, Prod.mk.injEq] at h
        obtain ⟨hcn, hst⟩ := h
        subst hst
        match i with
        | 0 =>
          simp only [List.get?_cons_zero, Option.some.injEq,
            Prod.mk.injEq] at hg
          obtain ⟨rfl, rfl⟩ := hg
          obtain ⟨cb, ccb, hcsub, hlook, hprops⟩ :=
            build_fixed_cycle c (path ++ [ix]) none st cc stA ha p l ch
              hsub hl hok
          refine ⟨cb, cc, ccb, ?_, hcsub, ?_, hprops⟩
          · rw [← hcn]
            rfl
          · exact buildPairs_mapLe rest path (ix + 1) stA crest stB hb l cb
              hlook
        | Nat.succ i2 =>
          simp only [List.get?_cons_succ] at hg
          obtain ⟨cb, cc0b, ccb, hget, hcsub, hlook, hprops⟩ :=
            buildPairs_fixed_cycle rest path (ix + 1) stA crest stB hb i2 w
              ch0 p l ch hg hsub hl hok
          refine ⟨cb, cc0b, ccb, ?_, hcsub, hlook, hprops⟩
          rw [← hcn]
          simpa using hget

end

/-- Claim C4 (amended: the shared label must be non-empty, since the
empty string is falsy in JS and `buildfunc` then allocates a fresh
prime instead of consulting the label map): for every two Fixed nodes
in one compiled tree that share the same non-empty label and each wrap
a Weighted/Choice node with the same number of alternatives and the
same weight vector, both wrapped nodes are bound to one shared cycle
`c` — the first occurrence allocates it, later ones find it in the
label map — and therefore select the same branch index for every
non-negative seed. -/
theorem c4_label_correlation (t : Node) (ct : CNode) (stF : BuildState)
    (p1 p2 : List Nat) (l : String) (ch1 ch2 : Node)
    (hc : compileNode t = .ok (ct, stF))
    (h1 : subtreeAt t p1 = some (Node.fixed l ch1))
    (h2 : subtreeAt t p2 = some (Node.fixed l ch2))
    (hl : l ≠ "")
    (hok : (∃ ps1 ps2, ch1 = Node.weighted ps1 ∧ ch2 = Node.weighted ps2 ∧
        ps1.map Prod.fst = ps2.map Prod.fst) ∨
      (∃ cs1 cs2, ch1 = Node.choice cs1 ∧ ch2 = Node.choice cs2 ∧
        cs1.length = cs2.length)) :
    ∃ c,
      ((∃ cps1 cps2,
          csubtreeAt ct p1 = some (CNode.fixedC (CNode.weighted c cps1)) ∧
          csubtreeAt ct p2 = some (CNode.fixedC (CNode.weighted c cps2)) ∧
          cps1.map Prod.fst = cps2.map Prod.fst ∧
          ∀ seed : Nat,
            selIdx (cps1.map Prod.fst) ((seed % c) % sumWeights cps1) =
            selIdx (cps2.map Prod.fst) ((seed % c) % sumWeights cps2)) ∨
       (∃ ccs1 ccs2,
          csubtreeAt ct p1 = some (CNode.fixedC (CNode.choice c ccs1)) ∧
          csubtreeAt ct p2 = some (CNode.fixedC (CNode.choice c ccs2)) ∧
          ccs1.length = ccs2.length ∧
          ∀ seed : Nat,
            (seed % c) % ccs1.length = (seed % c) % ccs2.length)) := by
  have hok1 : (∃ ps, ch1 = Node.weighted ps) ∨ ∃ cs, ch1 = Node.choice cs := by
    rcases hok with ⟨ps1, ps2, hh1, hh2, _⟩ | ⟨cs1, cs2, hh1, hh2, _⟩
    · exact Or.inl ⟨ps1, hh1⟩
    · exact Or.inr ⟨cs1, hh1⟩
  have hok2 : (∃ ps, ch2 = Node.weighted ps) ∨ ∃ cs, ch2 = Node.choice cs := by
    rcases hok with ⟨ps1, ps2, hh1, hh2, _⟩ | ⟨cs1, cs2, hh1, hh2, _⟩
    · exact Or.inl ⟨ps2, hh2⟩
    · exact Or.inr ⟨cs2, hh2⟩
  obtain ⟨c1, cc1, hcs1, hlk1, hw1, hch1⟩ :=
    build_fixed_cycle t [] none initBuildState ct stF hc p1 l ch1 h1 hl hok1
  obtain ⟨c2, cc2, hcs2, hlk2, hw2, hch2⟩ :=
    build_fixed_cycle t [] none initBuildState ct stF hc p2 l ch2 h2 hl hok2
  have hcc : c1 = c2 := by
    rw [hlk1] at hlk2
    injection hlk2
  subst hcc
  refine ⟨c1, ?_⟩
  rcases hok with ⟨ps1, ps2, hh1, hh2, hweq⟩ | ⟨cs1, cs2, hh1, hh2, hleq⟩
  · obtain ⟨cps1, rfl, hf1⟩ := hw1 ps1 hh1
    obtain ⟨cps2, rfl, hf2⟩ := hw2 ps2 hh2
    have hmap : cps1.map Prod.fst = cps2.map Prod.fst := by
      rw [hf1, hf2, hweq]
    refine Or.inl ⟨cps1, cps2, hcs1, hcs2, hmap, fun seed => ?_⟩
    simp only [sumWeights, hmap]
  · obtain ⟨ccs1, rfl, hl1⟩ := hch1 cs1 hh1
    obtain ⟨ccs2, rfl, hl2⟩ := hch2 cs2 hh2
    have hlen : ccs1.length = ccs2.length := by
      rw [hl1, hl2, hleq]
    refine Or.inr ⟨ccs1, ccs2, hcs1, hcs2, hlen, fun seed => ?_⟩
    rw [hlen]

/-- Witness for C4 at two Fixed("g", Weighted(1,"x",1,"y")) siblings:
both receive the shared cycle 13597. -/
theorem c4_label_correlation_witness :
    ∃ c,
      ((∃ cps1 cps2,
          csubtreeAt (CNode.sequence
            [CNode.fixedC (CNode.weighted 13597
              [(1, CNode.str "x"), (1, CNode.str "y")]),
             CNode.fixedC (CNode.weighted 13597
              [(1, CNode.str "x"), (1, CNode.str "y")])]) [0] =
            some (CNode.fixedC (CNode.weighted c cps1)) ∧
          csubtreeAt (CNode.sequence
            [CNode.fixedC (CNode.weighted 13597
              [(1, CNode.str "x"), (1, CNode.str "y")]),
             CNode.fixedC (CNode.weighted 13597
              [(1, CNode.str "x"), (1, CNode.str "y")])]) [1] =
            some (CNode.fixedC (CNode.weighted c cps2)) ∧
          cps1.map Prod.fst = cps2.map Prod.fst ∧
          ∀ seed : Nat,
            selIdx (cps1.map Prod.fst) ((seed % c) % sumWeights cps1) =
            selIdx (cps2.map Prod.fst) ((seed % c) % sumWeights cps2)) ∨
       (∃ ccs1 ccs2,
          csubtreeAt (CNode.sequence
            [CNode.fixedC (CNode.weighted 13597
              [(1, CNode.str "x"), (1, CNode.str "y")]),
             CNode.fixedC (CNode.weighted 13597
              [(1, CNode.str "x"), (1, CNode.str "y")])]) [0] =
            some (CNode.fixedC (CNode.choice c ccs1)) ∧
          csubtreeAt (CNode.sequence
            [CNode.fixedC (CNode.weighted 13597
              [(1, CNode.str "x"), (1, CNode.str "y")]),
             CNode.fixedC (CNode.weighted 13597
              [(1, CNode.str "x"), (1, CNode.str "y")])]) [1] =
            some (CNode.fixedC (CNode.choice c ccs2)) ∧
          ccs1.length = ccs2.length ∧
          ∀ seed : Nat,
            (seed % c) % ccs1.length = (seed % c) % ccs2.length)) :=
  c4_label_correlation
    (Node.sequence
      [Node.fixed "g" (Node.weighted [(1, Node.str "x"), (1, Node.str "y")]),
       Node.fixed "g" (Node.weighted [(1, Node.str "x"), (1, Node.str "y")])])
    (CNode.sequence
      [CNode.fixedC (CNode.weighted 13597
        [(1, CNode.str "x"), (1, CNode.str "y")]),
       CNode.fixedC (CNode.weighted 13597
        [(1, CNode.str "x"), (1, CNode.str "y")])])
    ⟨primeList.dropLast.dropLast.dropLast.dropLast, [("g", 13597)]⟩
    [0] [1] "g" (Node.weighted [(1, Node.str "x"), (1, Node.str "y")])
    (Node.weighted [(1, Node.str "x"), (1, Node.str "y")])
    rfl rfl rfl (by decide)
    (Or.inl ⟨[(1, Node.str "x"), (1, Node.str "y")],
      [(1, Node.str "x"), (1, Node.str "y")], rfl, rfl, rfl⟩)

/-- One cycle allocation, related to its specified prime cost: if the
pool holds enough primes the allocation succeeds, consumes exactly the
specified count, and updates the label map in step with the seen-label
set; if not, it raises the pool-exhausted error. -/
theorem allocCycle_spec (label : Option String) (st : BuildState)
    (seen : List String)
    (hinv : ∀ l, (List.lookup l st.fixedmap).isSome ↔ l ∈ seen) :
    ((consumeCount label seen).1 ≤ st.pool.length →
      ∃ c st1, allocCycle label st = .ok (c, st1) ∧
        st.pool.length = st1.pool.length + (consumeCount label seen).1 ∧
        (∀ l, (List.lookup l st1.fixedmap).isSome ↔
          l ∈ (consumeCount label seen).2)) ∧
    (st.pool.length < (consumeCount label seen).1 →
      allocCycle label st = .error .poolExhausted) := by
  have hpop : ∀ (st0 : BuildState),
      (1 ≤ st0.pool.length →
        ∃ c st1, popPrime st0 = .ok (c, st1) ∧
          st0.pool.length = st1.pool.length + 1 ∧
          st1.fixedmap = st0.fixedmap) ∧
      (st0.pool.length < 1 → popPrime st0 = .error .poolExhausted) := by
    intro st0
    constructor
    · intro hlen
      match hg : st0.pool.getLast? with
      | none =>
        rw [List.getLast?_eq_none_iff] at hg
        rw [hg] at hlen
        simp at hlen
      | some p =>
        refine ⟨p, ⟨st0.pool.dropLast, st0.fixedmap⟩, ?_, ?_, rfl⟩
        · simp [popPrime, hg]
        · have hne : st0.pool ≠ [] := by
            intro hnil
            rw [hnil] at hg
            simp at hg
          have := List.length_dropLast st0.pool
          have hlen2 : 1 ≤ st0.pool.length := hlen
          simp only [this]
          omega
    · intro hlen
      have hnil : st0.pool = [] := by
        cases hp : st0.pool with
        | nil => rfl
        | cons a rest => rw [hp] at hlen; simp at hlen
      simp [popPrime, hnil]
  match label with
  | none =>
    simp only [consumeCount]
    exact hpop st |>.imp
      (fun h1 hk => by
        obtain ⟨c, st1, hpp, hlen, hmap⟩ := h1 hk
        exact ⟨c, st1, hpp, hlen, fun l => by rw [hmap]; exact hinv l⟩)
      (fun h2 hk => h2 hk)
  | some lab =>
    by_cases hlab : lab = ""
    · simp only [consumeCount, if_pos hlab]
      simp only [allocCycle, if_pos hlab]
      exact hpop st |>.imp
        (fun h1 hk => by
          obtain ⟨c, st1, hpp, hlen, hmap⟩ := h1 hk
          exact ⟨c, st1, hpp, hlen, fun l => by rw [hmap]; exact hinv l⟩)
        (fun h2 hk => h2 hk)
    · by_cases hseen : lab ∈ seen
      · have hfound : (List.lookup lab st.fixedmap).isSome :=
          (hinv lab).mpr hseen
        match hf : List.lookup lab st.fixedmap with
        | none => rw [hf] at hfound; simp at hfound
        | some p =>
          simp only [consumeCount, if_neg hlab, if_pos hseen]
          constructor
          · intro hk
            refine ⟨p, st, ?_, by omega, hinv⟩
            simp [allocCycle, if_neg hlab, hf]
          · intro hk
            omega
      · simp only [consumeCount, if_neg hlab, if_neg hseen]
        have hf : List.lookup lab st.fixedmap = none := by
          match hf2 : List.lookup lab st.fixedmap with
          | none => rfl
          | some p =>
            have : (List.lookup lab st.fixedmap).isSome := by
              rw [hf2]
              rfl
            exact absurd ((hinv lab).mp this) hseen
        constructor
        · intro hk
          obtain ⟨c, st1, hpp, hlen, hmap⟩ := (hpop st).1 hk
          refine ⟨c, ⟨st1.pool, (lab, c) :: st1.fixedmap⟩, ?_, hlen, ?_⟩
          · simp only [allocCycle, if_neg hlab, hf, hpp]
          · intro l
            by_cases hll : l = lab
            · subst hll
              simp [List.lookup]
            · simp only [List.lookup,
                show (l == lab) = false by simpa using hll]
              rw [hmap]
              simpa [hll] using hinv l
        · intro hk
          have := (hpop st).2 hk
          simp only [allocCycle, if_neg hlab, hf, this]

mutual

/-- Compilation consumes exactly the specified number of primes: when
the pool holds at least the specified cost the build succeeds, the
pool shrinks by exactly that cost, and the label map mirrors the
seen-label set; when the pool holds less, the build raises the
pool-exhausted error. -/
theorem build_spec :
    ∀ (t : Node) (path : List Nat) (label : Option String) (st : BuildState)
      (seen : List String),
      (∀ l, (List.lookup l st.fixedmap).isSome ↔ l ∈ seen) →
      ((specPrimes t label seen).1 ≤ st.pool.length →
        ∃ cn st1, build t path label st = .ok (cn, st1) ∧
          st.pool.length = st1.pool.length + (specPrimes t label seen).1 ∧
          (∀ l, (List.lookup l st1.fixedmap).isSome ↔
            l ∈ (specPrimes t label seen).2)) ∧
      (st.pool.length < (specPrimes t label seen).1 →
        build t path label st = .error .poolExhausted)
  | Node.null, path, label, st, seen, hinv => by
    constructor
    · intro _
      exact ⟨CNode.null, st, rfl, by simp [specPrimes],
        by simpa [specPrimes] using hinv⟩
    · intro hk
      simp [specPrimes] at hk
  | Node.str s, path, label, st, seen, hinv => by
    constructor
    · intro _
      by_cases hs : s = ""
      · exact ⟨CNode.null, st, by simp [build, hs], by simp [specPrimes],
          by simpa [specPrimes] using hinv⟩
      · exact ⟨CNode.str s, st, by simp [build, hs], by simp [specPrimes],
          by simpa [specPrimes] using hinv⟩
    · intro hk
      simp [specPrimes] at hk
  | Node.period, path, label, st, seen, hinv => by
    constructor
    · intro _
      exact ⟨CNode.period, st, rfl, by simp [specPrimes],
        by simpa [specPrimes] using hinv⟩
    · intro hk
      simp [specPrimes] at hk
  | Node.comma, path, label, st, seen, hinv => by
    constructor
    · intro _
      exact ⟨CNode.comma, st, rfl, by simp [specPrimes],
        by simpa [specPrimes] using hinv⟩
    · intro hk
      simp [specPrimes] at hk
  | Node.semicolon, path, label, st, seen, hinv => by
    constructor
    · intro _
      exact ⟨CNode.semicolon, st, rfl, by simp [specPrimes],
        by simpa [specPrimes] using hinv⟩
    · intro hk
      simp [specPrimes] at hk
  | Node.dash, path, label, st, seen, hinv => by
    constructor
    · intro _
      exact ⟨CNode.dash, st, rfl, by simp [specPrimes],
        by simpa [specPrimes] using hinv⟩
    · intro hk
      simp [specPrimes] at hk
  | Node.aan, path, label, st, seen, hinv => by
    constructor
    · intro _
      exact ⟨CNode.aan, st, rfl, by simp [specPrimes],
        by simpa [specPrimes] using hinv⟩
    · intro hk
      simp [specPrimes] at hk
  | Node.concat, path, label, st, seen, hinv => by
    constructor
    · intro _
      exact ⟨CNode.concat, st, rfl, by simp [specPrimes],
        by simpa [specPrimes] using hinv⟩
    · intro hk
      simp [specPrimes] at hk
  | Node.sequence cs, path, label, st, seen, hinv => by
    rcases hcc : consumeCount label seen with ⟨k, seen1⟩
    rcases hsl : specPrimesList cs seen1 with ⟨k2, seen2⟩
    have hred : specPrimes (Node.sequence cs) label seen = (k + k2, seen2) := by
      simp only [specPrimes, hcc, hsl]
    rw [hred]
    have hspec := allocCycle_spec label st seen hinv
    rw [hcc] at hspec
    constructor
    · intro hk
      obtain ⟨c, stA, hao, hlenA, hinvA⟩ := hspec.1 (by omega)
      have hlspec := buildList_spec cs path 0 stA seen1 hinvA
      rw [hsl] at hlspec
      obtain ⟨ccs, stB, hbo, hlenB, hinvB⟩ := hlspec.1 (by omega)
      refine ⟨CNode.sequence ccs, stB, ?_, by omega, hinvB⟩
      simp only [build, hao]
      rw [hbo]
    · intro hk
      by_cases hkk : k ≤ st.pool.length
      · obtain ⟨c, stA, hao, hlenA, hinvA⟩ := hspec.1 hkk
        have hlspec := buildList_spec cs path 0 stA seen1 hinvA
        rw [hsl] at hlspec
        have herr := hlspec.2 (by omega)
        simp only [build, hao]
        rw [herr]
      · have herr := hspec.2 (by omega)
        simp only [build, herr]
  | Node.choice cs, path, label, st, seen, hinv => by
    rcases hcc : consumeCount label seen with ⟨k, seen1⟩
    rcases hsl : specPrimesList cs seen1 with ⟨k2, seen2⟩
    have hred : specPrimes (Node.choice cs) label seen = (k + k2, seen2) := by
      simp only [specPrimes, hcc, hsl]
    rw [hred]
    have hspec := allocCycle_spec label st seen hinv
    rw [hcc] at hspec
    constructor
    · intro hk
      obtain ⟨c, stA, hao, hlenA, hinvA⟩ := hspec.1 (by omega)
      have hlspec := buildList_spec cs path 0 stA seen1 hinvA
      rw [hsl] at hlspec
      obtain ⟨ccs, stB, hbo, hlenB, hinvB⟩ := hlspec.1 (by omega)
      refine ⟨CNode.choice c ccs, stB, ?_, by omega, hinvB⟩
      simp only [build, hao]
      rw [hbo]
    · intro hk
      by_cases hkk : k ≤ st.pool.length
      · obtain ⟨c, stA, hao, hlenA, hinvA⟩ := hspec.1 hkk
        have hlspec := buildList_spec cs path 0 stA seen1 hinvA
        rw [hsl] at hlspec
        have herr := hlspec.2 (by omega)
        simp only [build, hao]
        rw [herr]
      · have herr := hspec.2 (by omega)
        simp only [build, herr]
  | Node.shuffle cs, path, label, st, seen, hinv => by
    rcases hcc : consumeCount label seen with ⟨k, seen1⟩
    rcases hsl : specPrimesList cs seen1 with ⟨k2, seen2⟩
    have hred : specPrimes (Node.shuffle cs) label seen = (k + k2, seen2) := by
      simp only [specPrimes, hcc, hsl]
    rw [hred]
    have hspec := allocCycle_spec label st seen hinv
    rw [hcc] at hspec
    constructor
    · intro hk
      obtain ⟨c, stA, hao, hlenA, hinvA⟩ := hspec.1 (by omega)
      have hlspec := buildList_spec cs path 0 stA seen1 hinvA
      rw [hsl] at hlspec
      obtain ⟨ccs, stB, hbo, hlenB, hinvB⟩ := hlspec.1 (by omega)
      refine ⟨CNode.shuffle c path ccs, stB, ?_, by omega, hinvB⟩
      simp only [build, hao]
      rw [hbo]
    · intro hk
      by_cases hkk : k ≤ st.pool.length
      · obtain ⟨c, stA, hao, hlenA, hinvA⟩ := hspec.1 hkk
        have hlspec := buildList_spec cs path 0 stA seen1 hinvA
        rw [hsl] at hlspec
        have herr := hlspec.2 (by omega)
        simp only [build, hao]
        rw [herr]
      · have herr := hspec.2 (by omega)
        simp only [build, herr]
  | Node.weighted ps, path, label, st, seen, hinv => by
    rcases hcc : consumeCount label seen with ⟨k, seen1⟩
    rcases hsl : specPrimesPairs ps seen1 with ⟨k2, seen2⟩
    have hred : specPrimes (Node.weighted ps) label seen = (k + k2, seen2) := by
      simp only [specPrimes, hcc, hsl]
    rw [hred]
    have hspec := allocCycle_spec label st seen hinv
    rw [hcc] at hspec
    constructor
    · intro hk
      obtain ⟨c, stA, hao, hlenA, hinvA⟩ := hspec.1 (by omega)
      have hlspec := buildPairs_spec ps path 0 stA seen1 hinvA
      rw [hsl] at hlspec
      obtain ⟨cps, stB, hbo, hlenB, hinvB⟩ := hlspec.1 (by omega)
      refine ⟨CNode.weighted c cps, stB, ?_, by omega, hinvB⟩
      simp only [build, hao]
      rw [hbo]
    · intro hk
      by_cases hkk : k ≤ st.pool.length
      · obtain ⟨c, stA, hao, hlenA, hinvA⟩ := hspec.1 hkk
        have hlspec := buildPairs_spec ps path 0 stA seen1 hinvA
        rw [hsl] at hlspec
        have herr := hlspec.2 (by omega)
        simp only [build, hao]
        rw [herr]
      · have herr := hspec.2 (by omega)
        simp only [build, herr]
  | Node.fixed lab child, path, label, st, seen, hinv => by
    rcases hcc : consumeCount label seen with ⟨k, seen1⟩
    rcases hsl : specPrimes child (some lab) seen1 with ⟨k2, seen2⟩
    have hred : specPrimes (Node.fixed lab child) label seen =
        (k + k2, seen2) := by
      simp only [specPrimes, hcc, hsl]
    rw [hred]
    have hspec := allocCycle_spec label st seen hinv
    rw [hcc] at hspec
    constructor
    · intro hk
      obtain ⟨c, stA, hao, hlenA, hinvA⟩ := hspec.1 (by omega)
      have hcspec := build_spec child (path ++ [0]) (some lab) stA seen1 hinvA
      rw [hsl] at hcspec
      obtain ⟨cc, stB, hbo, hlenB, hinvB⟩ := hcspec.1 (by omega)
      refine ⟨CNode.fixedC cc, stB, ?_, by omega, hinvB⟩
      simp only [build, hao]
      rw [hbo]
    · intro hk
      by_cases hkk : k ≤ st.pool.length
      · obtain ⟨c, stA, hao, hlenA, hinvA⟩ := hspec.1 hkk
        have hcspec := build_spec child (path ++ [0]) (some lab) stA seen1
          hinvA
        rw [hsl] at hcspec
        have herr := hcspec.2 (by omega)
        simp only [build, hao]
        rw [herr]
      · have herr := hspec.2 (by omega)
        simp only [build, herr]

/-- List version of `build_spec`. -/
theorem buildList_spec :
    ∀ (cs : List Node) (path : List Nat) (ix : Nat) (st : BuildState)
      (seen : List String),
      (∀ l, (List.lookup l st.fixedmap).isSome ↔ l ∈ seen) →
      ((specPrimesList cs seen).1 ≤ st.pool.length →
        ∃ ccs st1, buildList cs path ix st = .ok (ccs, st1) ∧
          st.pool.length = st1.pool.length + (specPrimesList cs seen).1 ∧
          (∀ l, (List.lookup l st1.fixedmap).isSome ↔
            l ∈ (specPrimesList cs seen).2)) ∧
      (st.pool.length < (specPrimesList cs seen).1 →
        buildList cs path ix st = .error .poolExhausted)
  | [], path, ix, st, seen, hinv => by
    constructor
    · intro _
      exact ⟨[], st, rfl, by simp [specPrimesList],
        by simpa [specPrimesList] using hinv⟩
    · intro hk
      simp [specPrimesList] at hk
  | c :: rest, path, ix, st, seen, hinv => by
    rcases hc1 : specPrimes c none seen with ⟨k, seen1⟩
    rcases hc2 : specPrimesList rest seen1 with ⟨k2, seen2⟩
    have hred : specPrimesList (c :: rest) seen = (k + k2, seen2) := by
      simp only [specPrimesList, hc1, hc2]
    rw [hred]
    have hbs := build_spec c (path ++ [ix]) none st seen hinv
    rw [hc1] at hbs
    constructor
    · intro hk
      obtain ⟨cc, stA, hao, hlenA, hinvA⟩ := hbs.1 (by omega)
      have hrs := buildList_spec rest path (ix + 1) stA seen1 hinvA
      rw [hc2] at hrs
      obtain ⟨crest, stB, hbo, hlenB, hinvB⟩ := hrs.1 (by omega)
      refine ⟨cc :: crest, stB, ?_, by omega, hinvB⟩
      simp only [buildList, hao]
      rw [hbo]
    · intro hk
      by_cases hkk : k ≤ st.pool.length
      · obtain ⟨cc, stA, hao, hlenA, hinvA⟩ := hbs.1 hkk
        have hrs := buildList_spec rest path (ix + 1) stA seen1 hinvA
        rw [hc2] at hrs
        have herr := hrs.2 (by omega)
        simp only [buildList, hao]
        rw [herr]
      · have herr := hbs.2 (by omega)
        simp only [buildList, herr]

/-- Pairs version of `build_spec`. -/
theorem buildPairs_spec :
    ∀ (ps : List (Nat × Node)) (path : List Nat) (ix : Nat) (st : BuildState)
      (seen : List String),
      (∀ l, (List.lookup l st.fixedmap).isSome ↔ l ∈ seen) →
      ((specPrimesPairs ps seen).1 ≤ st.pool.length →
        ∃ cps st1, buildPairs ps path ix st = .ok (cps, st1) ∧
          st.pool.length = st1.pool.length + (specPrimesPairs ps seen).1 ∧
          (∀ l, (List.lookup l st1.fixedmap).isSome ↔
            l ∈ (specPrimesPairs ps seen).2)) ∧
      (st.pool.length < (specPrimesPairs ps seen).1 →
        buildPairs ps path ix st = .error .poolExhausted)
  | [], path, ix, st, seen, hinv => by
    constructor
    · intro _
      exact ⟨[], st, rfl, by simp [specPrimesPairs],
        by simpa [specPrimesPairs] using hinv⟩
    · intro hk
      simp [specPrimesPairs] at hk
  | (w, c) :: rest, path, ix, st, seen, hinv => by
    rcases hc1 : specPrimes c none seen with ⟨k, seen1⟩
    rcases hc2 : specPrimesPairs rest seen1 with ⟨k2, seen2⟩
    have hred : specPrimesPairs ((w, c) :: rest) seen = (k + k2, seen2) := by
      simp only [specPrimesPairs, hc1, hc2]
    rw [hred]
    have hbs := build_spec c (path ++ [ix]) none st seen hinv
    rw [hc1] at hbs
    constructor
    · intro hk
      obtain ⟨cc, stA, hao, hlenA, hinvA⟩ := hbs.1 (by omega)
      have hrs := buildPairs_spec rest path (ix + 1) stA seen1 hinvA
      rw [hc2] at hrs
      obtain ⟨crest, stB, hbo, hlenB, hinvB⟩ := hrs.1 (by omega)
      refine ⟨(w, cc) :: crest, stB, ?_, by omega, hinvB⟩
      simp only [buildPairs, hao]
      rw [hbo]
    · intro hk
      by_cases hkk : k ≤ st.pool.length
      · obtain ⟨cc, stA, hao, hlenA, hinvA⟩ := hbs.1 hkk
        have hrs := buildPairs_spec rest path (ix + 1) stA seen1 hinvA
        rw [hc2] at hrs
        have herr := hrs.2 (by omega)
        simp only [buildPairs, hao]
        rw [herr]
      · have herr := hbs.2 (by omega)
        simp only [buildPairs, herr]

end

/-- Claim C5 (amended: in the source `buildfunc` pops a prime for
every non-leaf node before dispatching, so Sequence, Fixed and Choice
occurrences consume primes too — the source itself remarks that it
"wastes primes on Sequence nodes"): literal, null and control nodes
consume no prime, and the number of primes removed from the pool by a
compilation equals the specified cost `specPrimes`, which charges one
fresh prime per non-leaf occurrence except a non-leaf node built
directly under an already-seen non-empty label, plus one per first-seen
non-empty label. -/
theorem c5_prime_consumption (t : Node) (ct : CNode) (stF : BuildState)
    (hc : compileNode t = .ok (ct, stF)) :
    primeList.length = stF.pool.length + (specPrimes t none []).1 := by
  have hinv : ∀ l, (List.lookup l initBuildState.fixedmap).isSome ↔
      l ∈ ([] : List String) := by
    intro l
    simp [initBuildState, List.lookup]
  have hspec := build_spec t [] none initBuildState [] hinv
  simp only [compileNode] at hc
  by_cases hk : (specPrimes t none []).1 ≤ primeList.length
  · obtain ⟨cn, st1, hok, hlen, _⟩ := hspec.1 hk
    rw [hc] at hok
    have h1 : stF = st1 := by
      injection hok with h2
      exact congrArg Prod.snd h2
    rw [h1]
    exact hlen
  · have hpl : initBuildState.pool.length = primeList.length := rfl
    have herr := hspec.2 (by omega)
    rw [hc] at herr
    exact Except.noConfusion herr

/-- Witness for C5 at `Sequence("hello")`: one prime consumed. -/
theorem c5_prime_consumption_witness :
    primeList.length =
      (BuildState.mk primeList.dropLast []).pool.length +
      (specPrimes (Node.sequence [Node.str "hello"]) none []).1 :=
  c5_prime_consumption (Node.sequence [Node.str "hello"])
    (CNode.sequence [CNode.str "hello"]) ⟨primeList.dropLast, []⟩ rfl

/-- The specified prime cost of a Sequence nest: one prime per
Sequence wrapper, with no label ever recorded. -/
theorem seqNest_specPrimes :
    ∀ (k : Nat) (seen : List String),
      specPrimes (seqNest k) none seen = (k, seen) := by
  intro k
  induction k with
  | zero => intro seen; rfl
  | succ k ih =>
    intro seen
    simp [seqNest, specPrimes, specPrimesList, consumeCount, ih seen,
      Nat.add_comm]

/-- A Sequence nest contains no Weighted or Shuffle node. -/
theorem seqNest_wsCount : ∀ k : Nat, wsCount (seqNest k) = 0 := by
  intro k
  induction k with
  | zero => rfl
  | succ k ih => simp [seqNest, wsCount, wsCountList, ih]

/-- A Sequence nest contains no label. -/
theorem seqNest_labels : ∀ k : Nat, labelsOf (seqNest k) = [] := by
  intro k
  induction k with
  | zero => rfl
  | succ k ih => simp [seqNest, labelsOf, labelsOfList, ih]

/-- Counterexample to claim C9 as stated: a nest of 941 Sequence
nodes around one literal contains no Weighted or Shuffle node and no
label, so under the claim no fresh-cycle request by a Weighted/Shuffle
node or a new label can ever find the pool empty and compilation
should succeed; but `buildfunc` pops a prime for every non-leaf node,
the 940-prime pool runs out after the 940th Sequence, and compilation
fails with the pool-exhausted error. -/
theorem c9_counterexample :
    compileNode (seqNest 941) = .error .poolExhausted ∧
    wsCount (seqNest 941) = 0 ∧ labelsOf (seqNest 941) = [] := by
  refine ⟨?_, seqNest_wsCount 941, seqNest_labels 941⟩
  have hinv : ∀ l, (List.lookup l initBuildState.fixedmap).isSome ↔
      l ∈ ([] : List String) := by
    intro l
    simp [initBuildState, List.lookup]
  have hspec := build_spec (seqNest 941) [] none initBuildState [] hinv
  have hsp : specPrimes (seqNest 941) none [] = (941, []) :=
    seqNest_specPrimes 941 []
  have hlen : initBuildState.pool.length = 940 := rfl
  simp only [compileNode]
  exact hspec.2 (by rw [hsp, hlen]; omega)

/-- Claim C9 (amended: in the source every non-leaf node — Sequence,
Fixed and Choice included, not only Weighted/Shuffle nodes and new
labels — requests a fresh prime, so exhaustion is reached exactly when
the total demand `specPrimes` exceeds the pool, see the
counterexample): compilation fails, with the pool-exhausted error and
no compiled tree, exactly when the total demand for fresh cycles
exceeds the pool — that is, exactly when some allocation (for any
non-leaf node, or for a new label via its wrapped node) finds the pool
empty; with enough primes it returns a complete compiled tree,
consuming exactly the demanded primes. The failure is fatal: the
pool-exhausted error is the only error compilation can produce, and no
partial tree accompanies it. -/
theorem c9_pool_exhausted (t : Node) (pool : List Nat) :
    (build t [] none ⟨pool, []⟩ = .error .poolExhausted ↔
      pool.length < (specPrimes t none []).1) ∧
    (∀ e, build t [] none ⟨pool, []⟩ = .error e → e = .poolExhausted) ∧
    ((specPrimes t none []).1 ≤ pool.length →
      ∃ ct st1, build t [] none ⟨pool, []⟩ = .ok (ct, st1) ∧
        pool.length = st1.pool.length + (specPrimes t none []).1) := by
  have hinv : ∀ l,
      (List.lookup l (BuildState.mk pool []).fixedmap).isSome ↔
      l ∈ ([] : List String) := by
    intro l
    simp [List.lookup]
  have hspec := build_spec t [] none ⟨pool, []⟩ [] hinv
  refine ⟨⟨?_, ?_⟩, ?_, ?_⟩
  · intro herr
    by_contra hk
    push_neg at hk
    obtain ⟨cn, st1, hok, _, _⟩ := hspec.1 hk
    rw [hok] at herr
    exact Except.noConfusion herr
  · intro hk
    exact hspec.2 hk
  · intro e he
    cases e
    rfl
  · intro hk
    obtain ⟨cn, st1, hok, hlen, _⟩ := hspec.1 hk
    exact ⟨cn, st1, hok, hlen⟩

/-- Uppercasing an ASCII letter yields an uppercase letter. -/
theorem toUpper_isUpper (c : Char) (h : c.isAlpha = true) :
    (c.toUpper).isUpper = true ∧ (c.toUpper).isAlpha = true := by
  have hca : Char.isAlpha = fun c => c.isUpper || c.isLower := rfl
  rw [hca] at h
  simp only [Bool.or_eq_true, Char.isUpper, Char.isLower, Bool.and_eq_true,
    decide_eq_true_eq] at h
  unfold Char.toUpper
  rcases h with ⟨h1, h2⟩ | ⟨h1, h2⟩
  · have h1x : (65 : Nat) ≤ c.toNat := h1
    have h2x : c.toNat ≤ 90 := h2
    have hno : ¬ (c.toNat ≥ 97 ∧ c.toNat ≤ 122) := by omega
    rw [if_neg hno]
    constructor
    · simp only [Char.isUpper, Bool.and_eq_true, decide_eq_true_eq]
      exact ⟨h1, h2⟩
    · simp only [Char.isAlpha, Char.isUpper, Bool.and_eq_true,
        Bool.or_eq_true, decide_eq_true_eq]
      left
      exact ⟨h1, h2⟩
  · have h1x : (97 : Nat) ≤ c.toNat := h1
    have h2x : c.toNat ≤ 122 := h2
    rw [if_pos ⟨h1x, h2x⟩]
    have hb1 : (65 : Nat) ≤ c.toNat - 32 := by omega
    have hb2 : c.toNat - 32 ≤ 90 := by omega
    generalize c.toNat - 32 = m at hb1 hb2
    interval_cases m <;> exact ⟨by decide, by decide⟩

/-- Folding string concatenation appends the character data. -/
theorem foldl_append_data : ∀ (l : List String) (acc : String),
    (l.foldl (fun r s => r ++ s) acc).data =
      acc.data ++ (l.map String.data).flatten := by
  intro l
  induction l with
  | nil => intro acc; simp
  | cons a rest ih =>
    intro acc
    simp only [List.foldl_cons, List.map_cons, List.flatten_cons]
    rw [ih]
    simp [String.data_append]

/-- The character data of a joined piece list is the concatenation of
the data of the pieces. -/
theorem join_data (l : List String) :
    (String.join l).data = (l.map String.data).flatten := by
  have h := foldl_append_data l ""
  simpa [String.join] using h

/-- Uppercasing the first character of a word whose data is known. -/
theorem capFirst_data (w : String) (ch : Char) (t : List Char)
    (h : w.data = ch :: t) : (capFirst w).data = ch.toUpper :: t := by
  simp [capFirst, h]

/-- Punctuation marks processed while no word has yet been emitted in
the current sentence emit nothing and keep the assembler in a
capitalizing mode. -/
theorem asmRun_marks :
    ∀ (pre rest : List Tok) (m : Mode),
      (m = Mode.beginning ∨ m = Mode.newSentence) →
      (∀ tk ∈ pre, tk = Tok.period ∨ tk = Tok.comma ∨ tk = Tok.semicolon ∨
        tk = Tok.dash) →
      ∃ m2, (m2 = Mode.beginning ∨ m2 = Mode.newSentence) ∧
        asmRun (pre ++ rest) m = asmRun rest m2 := by
  intro pre
  induction pre with
  | nil => intro rest m hm _; exact ⟨m, hm, rfl⟩
  | cons tk pre2 ih =>
    intro rest m hm hall
    have htk := hall tk (by simp)
    have hstep : ∃ m1, (m1 = Mode.beginning ∨ m1 = Mode.newSentence) ∧
        asmStep m tk = ([], m1) := by
      rcases htk with rfl | rfl | rfl | rfl <;> rcases hm with rfl | rfl <;>
        first
          | exact ⟨Mode.newSentence, Or.inr rfl, rfl⟩
          | exact ⟨Mode.beginning, Or.inl rfl, rfl⟩
    obtain ⟨m1, hm1, hstep⟩ := hstep
    obtain ⟨m2, hm2, hrec⟩ :=
      ih rest m1 hm1 (fun tk2 h2 => hall tk2 (by simp [h2]))
    refine ⟨m2, hm2, ?_⟩
    simp only [List.cons_append, asmRun, hstep, List.append_eq]
    rw [hrec]
    simp

/-- The first alphabetic character of assembled output beginning with
an optional sentence separator and a capitalized word is the
capitalized first letter of that word. -/
theorem firstAlpha_join_cap (sep tail : List String) (w : String)
    (ch : Char) (t : List Char) (hw : w.data = ch :: t)
    (ha : ch.isAlpha = true) (hsep : sep = [] ∨ sep = [". "]) :
    firstAlpha (String.join (sep ++ capFirst w :: tail)) =
      some ch.toUpper := by
  simp only [firstAlpha]
  rw [join_data]
  simp only [List.map_append, List.map_cons, List.flatten_append,
    List.flatten_cons]
  rw [List.find?_append]
  have hsepn : ((sep.map String.data).flatten).find? Char.isAlpha = none := by
    rcases hsep with rfl | rfl <;> rfl
  rw [hsepn, List.find?_append, capFirst_data w ch t hw,
    List.find?_cons_of_pos _ (toUpper_isUpper ch ha).2]
  rfl

/-- Claim C8 (amended: the first-character uppercasing of the source
only produces an uppercase first alphabetic character when the first
word token is not cancelled by a preceding Concat token and itself
begins with an ASCII letter; a leading Concat or a word with a
non-letter first character defeats it, see the counterexample): for
every node tree and seed, if the evaluated token stream consists of
punctuation marks followed by a word token whose first character is an
ASCII letter, the assembled output has that letter, uppercased, as its
first alphabetic character; moreover a Period token always puts the
assembler into `newSentence` mode, and the word processed in that mode
(the first word after the Period) is emitted capitalized after the
sentence separator. -/
theorem c8_capitalization (t : Node) (seed : Nat) (ct : CNode)
    (stB : BuildState) (toks : List Tok) (σ1 : Store)
    (pre : List Tok) (w : String) (rest : List Tok) (ch : Char)
    (hc : compileNode t = .ok (ct, stB))
    (he : evalC ct seed initStore = (toks, σ1))
    (hsplit : toks = pre ++ Tok.word w :: rest)
    (hpre : ∀ tk ∈ pre, tk = Tok.period ∨ tk = Tok.comma ∨
      tk = Tok.semicolon ∨ tk = Tok.dash)
    (hch : w.data.head? = some ch) (halpha : ch.isAlpha = true) :
    firstAlpha (assemble toks) = some ch.toUpper ∧
    (ch.toUpper).isUpper = true ∧
    (∀ m, asmStep m Tok.period = ([], Mode.newSentence)) ∧
    (∀ w2 : String, w2 ≠ "" →
      asmStep Mode.newSentence (Tok.word w2) =
        ([". ", capFirst w2], Mode.interword)) := by
  refine ⟨?_, (toUpper_isUpper ch halpha).1, fun m => rfl,
    fun w2 hw2 => by simp [asmStep, hw2, emitWord, sepFor]⟩
  subst hsplit
  match hwd : w.data with
  | [] => rw [hwd] at hch; exact Option.noConfusion hch
  | c0 :: t0 =>
    rw [hwd] at hch
    have hc0 : c0 = ch := by injection hch
    subst hc0
    have hw : w ≠ "" := by
      intro hnil
      rw [hnil] at hwd
      exact List.noConfusion hwd
    obtain ⟨m2, hm2, hrun⟩ := asmRun_marks pre (Tok.word w :: rest)
      Mode.beginning (Or.inl rfl) hpre
    simp only [assemble, hrun]
    have hsep : ∃ sep, (sep = [] ∨ sep = [". "]) ∧
        asmStep m2 (Tok.word w) =
          (sep ++ [capFirst w], Mode.interword) := by
      rcases hm2 with rfl | rfl
      · exact ⟨[], Or.inl rfl, by simp [asmStep, hw, emitWord, sepFor]⟩
      · exact ⟨[". "], Or.inr rfl, by simp [asmStep, hw, emitWord, sepFor]⟩
    obtain ⟨sep, hsepor, hstep⟩ := hsep
    simp only [asmRun, hstep]
    rcases hr : asmRun rest Mode.interword with ⟨psR, mF⟩
    dsimp only
    by_cases hfin : mF = Mode.beginning ∨ mF = Mode.newSentence
    · rw [if_pos hfin]
      have := firstAlpha_join_cap sep psR w c0 t0 hwd halpha hsepor
      simpa using this
    · rw [if_neg hfin]
      have := firstAlpha_join_cap sep (psR ++ ["."]) w c0 t0 hwd halpha
        hsepor
      simpa using this

/-- Witness for C8 at the single-word tree `Sequence("hello")`. -/
theorem c8_capitalization_witness :
    firstAlpha (assemble [Tok.word "hello"]) = some (Char.toUpper 'h') ∧
    (Char.toUpper 'h').isUpper = true ∧
    (∀ m, asmStep m Tok.period = ([], Mode.newSentence)) ∧
    (∀ w2 : String, w2 ≠ "" →
      asmStep Mode.newSentence (Tok.word w2) =
        ([". ", capFirst w2], Mode.interword)) :=
  c8_capitalization (Node.sequence [Node.str "hello"]) 0
    (CNode.sequence [CNode.str "hello"]) ⟨primeList.dropLast, []⟩
    [Tok.word "hello"] initStore [] "hello" [] 'h' rfl rfl rfl
    (by simp) rfl (by decide)

end Mutagen
